import Mathlib

/-!
Verification of the ssm-ctl parameter-file compilation engine
(`ssm_ctl/parameters.py`, `ssm_ctl/files.py`) against its specification.

The Python code is shallowly embedded: decoded YAML documents become the
inductive type `Y`, Python truthiness is modelled explicitly, fallible code
returns `Except String`, and the mutable `_value` cache of `VarString` is
modelled by an explicit cache field threaded through `readValue`.
-/

deriving instance DecidableEq for Except

namespace SsmCtl

/-- A decoded document value (the shapes produced by yaml.safe_load that the
program manipulates): strings, booleans, sequences and string-keyed mappings. -/
inductive Y : Type where
  | s (s : String)
  | b (b : Bool)
  | l (xs : List Y)
  | m (kvs : List (String × Y))

mutual

/-- Decidable equality for `Y` (needed because `Input.merge_inputs` compares
validation patterns with `!=`). -/
def Y.deq : (a b : Y) → Decidable (a = b)
  | .s a, .s c =>
    if h : a = c then .isTrue (by rw [h]) else .isFalse (by intro hh; cases hh; exact h rfl)
  | .b a, .b c =>
    if h : a = c then .isTrue (by rw [h]) else .isFalse (by intro hh; cases hh; exact h rfl)
  | .l xs, .l ys =>
    match Y.deqList xs ys with
    | .isTrue h => .isTrue (by rw [h])
    | .isFalse h => .isFalse (by intro hh; cases hh; exact h rfl)
  | .m xs, .m ys =>
    match Y.deqKvs xs ys with
    | .isTrue h => .isTrue (by rw [h])
    | .isFalse h => .isFalse (by intro hh; cases hh; exact h rfl)
  | .s _, .b _ => .isFalse (by intro hh; cases hh)
  | .s _, .l _ => .isFalse (by intro hh; cases hh)
  | .s _, .m _ => .isFalse (by intro hh; cases hh)
  | .b _, .s _ => .isFalse (by intro hh; cases hh)
  | .b _, .l _ => .isFalse (by intro hh; cases hh)
  | .b _, .m _ => .isFalse (by intro hh; cases hh)
  | .l _, .s _ => .isFalse (by intro hh; cases hh)
  | .l _, .b _ => .isFalse (by intro hh; cases hh)
  | .l _, .m _ => .isFalse (by intro hh; cases hh)
  | .m _, .s _ => .isFalse (by intro hh; cases hh)
  | .m _, .b _ => .isFalse (by intro hh; cases hh)
  | .m _, .l _ => .isFalse (by intro hh; cases hh)

def Y.deqList : (xs ys : List Y) → Decidable (xs = ys)
  | [], [] => .isTrue rfl
  | [], _ :: _ => .isFalse (by intro hh; cases hh)
  | _ :: _, [] => .isFalse (by intro hh; cases hh)
  | x :: xs, y :: ys =>
    match Y.deq x y with
    | .isFalse h => .isFalse (by intro hh; cases hh; exact h rfl)
    | .isTrue h1 =>
      match Y.deqList xs ys with
      | .isTrue h2 => .isTrue (by rw [h1, h2])
      | .isFalse h => .isFalse (by intro hh; cases hh; exact h rfl)

def Y.deqKvs : (xs ys : List (String × Y)) → Decidable (xs = ys)
  | [], [] => .isTrue rfl
  | [], _ :: _ => .isFalse (by intro hh; cases hh)
  | _ :: _, [] => .isFalse (by intro hh; cases hh)
  | (k, v) :: xs, (k', v') :: ys =>
    if hk : k = k' then
      match Y.deq v v' with
      | .isFalse h => .isFalse (by intro hh; cases hh; exact h rfl)
      | .isTrue h1 =>
        match Y.deqKvs xs ys with
        | .isTrue h2 => .isTrue (by rw [hk, h1, h2])
        | .isFalse h => .isFalse (by intro hh; cases hh; exact h rfl)
    else .isFalse (by intro hh; cases hh; exact hk rfl)

end

instance : DecidableEq Y := fun a b => Y.deq a b

/-- Python truthiness of a decoded value: empty strings, `False`, and empty
collections are falsy. -/
def Y.truthy : Y → Bool
  | .s v => !v.isEmpty
  | .b v => v
  | .l xs => !xs.isEmpty
  | .m kvs => !kvs.isEmpty

/-- Truthiness of an optional value (`None` is falsy). -/
def truthyOptY : Option Y → Bool
  | none => false
  | some v => v.truthy

/-- Python `==` between a decoded value and a string literal (as in
`type == 'SecureString'`): true exactly when the value is that string. -/
def Y.isStr (y : Y) (s : String) : Bool :=
  match y with
  | .s t => t == s
  | _ => false

/-- `name.startswith('.')`. -/
def startsWithDot (s : String) : Bool :=
  match s.data with
  | '.' :: _ => true
  | _ => false

/-- Python `dict` lookup on an association list (keys are unique in decoded
documents; the first binding wins). -/
def alookup {α : Type} : List (String × α) → String → Option α
  | [], _ => none
  | (k, v) :: rest, key => if k = key then some v else alookup rest key

/-- Python `d[k] = v` on an association list: overwrite in place if the key
exists, else append. -/
def dictSet {α : Type} : List (String × α) → String → α → List (String × α)
  | [], k, v => [(k, v)]
  | (k', v') :: rest, k, v =>
    if k' = k then (k, v) :: rest else (k', v') :: dictSet rest k v

/-- Python `a.update(b)`: values of keys present in `b` replace those in `a`,
new keys of `b` are appended in order. -/
def dictUpdate {α : Type} (a b : List (String × α)) : List (String × α) :=
  a.map (fun kv => match alookup b kv.1 with
    | some v => (kv.1, v)
    | none => kv)
  ++ b.filter (fun kv => (alookup a kv.1).isNone)

/-- `_batch(iterable, n)` (`parameters.py`): the slices
`iterable[0:n], iterable[n:2n], ...`, one per index produced by
`range(0, len(iterable), n)`. -/
def batchSlices {α : Type} (iterable : List α) (n : Nat) : List (List α) :=
  (List.range ((iterable.length + n - 1) / n)).map
    (fun i => (iterable.drop (i * n)).take n)

/-- A `\w` word character (ASCII letters, digits, underscore), as used by
`VarString._VAR_NAME_PATTERN`. -/
def wordChar (c : Char) : Bool :=
  c.isAlphanum || c = '_'

/-- The scanner state of `findRefsAux`: outside any candidate match, just past
a `$`, or inside `$(` accumulating word characters. -/
inductive ScanState : Type where
  | plain
  | sawDollar
  | inName (acc : List Char)

/-- Left-to-right scanner for non-overlapping `$(\w+)` matches. A `$` in any
state restarts a candidate match, exactly as the regex engine retries from the
next position after a failed match; a match is emitted at `)` after at least
one word character. -/
def findRefsAux : ScanState → List Char → List String
  | _, [] => []
  | .plain, c :: rest =>
    if c = '$' then findRefsAux .sawDollar rest else findRefsAux .plain rest
  | .sawDollar, c :: rest =>
    if c = '(' then findRefsAux (.inName []) rest
    else if c = '$' then findRefsAux .sawDollar rest
    else findRefsAux .plain rest
  | .inName acc, c :: rest =>
    if wordChar c then findRefsAux (.inName (acc ++ [c])) rest
    else if c = ')' && !acc.isEmpty then String.mk acc :: findRefsAux .plain rest
    else if c = '$' then findRefsAux .sawDollar rest
    else findRefsAux .plain rest

/-- `VarString.__init__`: `self.get_reference_pattern().findall(s)` — the list
of `$(\w+)` reference names in `s`, in order of occurrence, duplicates kept.
Matches are non-overlapping and found left to right. -/
def findRefs (s : List Char) : List String :=
  findRefsAux .plain s

/-- `re.escape('$({})'.format(name))` as character list: the literal pattern
`$(name)` compiled by `VarString.get_reference_pattern(name)`. -/
def refPat (name : String) : List Char :=
  '$' :: '(' :: name.data ++ [')']

/-- Character-by-character replacement scanner: while `skip` is positive the
character belongs to an already-replaced occurrence and is dropped; at `skip =
0` an occurrence of the pattern starting here is replaced (and the rest of the
occurrence skipped), otherwise the character is copied. -/
def subRefAux (name : String) (repl : List Char) : Nat → List Char → List Char
  | _, [] => []
  | skip + 1, _ :: rest => subRefAux name repl skip rest
  | 0, c :: rest =>
    if (refPat name).isPrefixOf (c :: rest) then
      repl ++ subRefAux name repl ((refPat name).length - 1) rest
    else
      c :: subRefAux name repl 0 rest

/-- `pattern.sub(repl, value)` for the literal pattern `$(name)`: replace every
non-overlapping occurrence, scanning left to right; the expanded replacement
text is not rescanned. `repl` is the already-expanded replacement. -/
def subRef (name : String) (repl : List Char) (l : List Char) : List Char :=
  subRefAux name repl 0 l

/-- Octal digit test, for Python replacement-template escapes. -/
def isOctDigit (c : Char) : Bool :=
  '0' ≤ c && c ≤ '7'

/-- Numeric value of a short octal digit string. -/
def octVal (ds : List Char) : Nat :=
  ds.foldl (fun acc c => acc * 8 + (c.toNat - '0'.toNat)) 0

/-- The scanner state of `processReplAux`: plain text, just past a backslash,
expecting the `<` of `\g<...>`, inside a `\g<...>` group name, after `\0` with
up to `k` more octal digits allowed (value so far `val`), or after one or two
nonzero-led digits that may still turn into a three-digit octal escape. -/
inductive ReplState : Type where
  | normal
  | esc
  | gref
  | gname (acc : List Char)
  | oct0 (k : Nat) (val : Nat)
  | octd (d1 : Char)
  | octd2 (d1 d2 : Char)

/-- Python `re.sub` replacement-template processing (`sre_parse.parse_template`)
as it applies inside `VarString.value`: the pattern there is
`re.escape('$(name)')`, which has no capture groups, so only group 0 (the whole
match, `matchStr`) is a valid group reference. Backslash escapes in the
replacement string are interpreted: `\\`, the ASCII escapes `\a \b \f \n \r
\t \v`, octal escapes, and group references (`\g<0>` expands to the match;
numeric references, which the groupless pattern cannot satisfy, and unknown
names raise); an unknown letter escape raises; a backslash before a
non-alphanumeric character is kept literally. -/
def processReplAux (matchStr : String) : ReplState → List Char → Except String (List Char)
  | .normal, [] => pure []
  | .normal, c :: rest =>
    if c = '\\' then processReplAux matchStr .esc rest
    else (c :: ·) <$> processReplAux matchStr .normal rest
  | .esc, [] => throw "bad escape (end of pattern)"
  | .esc, c :: rest =>
    if c = '\\' then ('\\' :: ·) <$> processReplAux matchStr .normal rest
    else if c = 'a' then (Char.ofNat 7 :: ·) <$> processReplAux matchStr .normal rest
    else if c = 'b' then (Char.ofNat 8 :: ·) <$> processReplAux matchStr .normal rest
    else if c = 'f' then (Char.ofNat 12 :: ·) <$> processReplAux matchStr .normal rest
    else if c = 'n' then ('\n' :: ·) <$> processReplAux matchStr .normal rest
    else if c = 'r' then (Char.ofNat 13 :: ·) <$> processReplAux matchStr .normal rest
    else if c = 't' then ('\t' :: ·) <$> processReplAux matchStr .normal rest
    else if c = 'v' then (Char.ofNat 11 :: ·) <$> processReplAux matchStr .normal rest
    else if c = 'g' then processReplAux matchStr .gref rest
    else if c = '0' then processReplAux matchStr (.oct0 2 0) rest
    else if c.isDigit then processReplAux matchStr (.octd c) rest
    else if c.isAlpha then throw "bad escape"
    else (fun l => '\\' :: c :: l) <$> processReplAux matchStr .normal rest
  | .gref, [] => throw "missing <"
  | .gref, c :: rest =>
    if c = '<' then processReplAux matchStr (.gname []) rest
    else throw "missing <"
  | .gname _, [] => throw "missing >, unterminated name"
  | .gname acc, c :: rest =>
    if c = '>' then
      if acc.all (· = '0') && !acc.isEmpty then
        (matchStr.data ++ ·) <$> processReplAux matchStr .normal rest
      else if acc.all Char.isDigit && !acc.isEmpty then
        throw "invalid group reference"
      else throw "unknown group name"
    else processReplAux matchStr (.gname (acc ++ [c])) rest
  | .oct0 _ val, [] => pure [Char.ofNat val]
  | .oct0 k val, c :: rest =>
    if k > 0 && isOctDigit c then
      processReplAux matchStr (.oct0 (k - 1) (val * 8 + (c.toNat - '0'.toNat))) rest
    else if c = '\\' then (Char.ofNat val :: ·) <$> processReplAux matchStr .esc rest
    else (fun l => Char.ofNat val :: c :: l) <$> processReplAux matchStr .normal rest
  | .octd _, [] => throw "invalid group reference"
  | .octd d1, c :: rest =>
    if isOctDigit d1 && isOctDigit c then processReplAux matchStr (.octd2 d1 c) rest
    else throw "invalid group reference"
  | .octd2 _ _, [] => throw "invalid group reference"
  | .octd2 d1 d2, c :: rest =>
    if isOctDigit c then
      if octVal [d1, d2, c] ≤ 255 then
        (Char.ofNat (octVal [d1, d2, c]) :: ·) <$> processReplAux matchStr .normal rest
      else throw "octal escape value outside of range"
    else throw "invalid group reference"

/-- Replacement-template processing of a whole replacement string. -/
def processRepl (matchStr : String) (l : List Char) : Except String (List Char) :=
  processReplAux matchStr .normal l

/-- `VarString._REFERENCE_PATTERN.fullmatch(s)`: `s` is exactly `$(w)` for a
nonempty word `w`. -/
def isFullReference (s : String) : Bool :=
  match s.data with
  | '$' :: '(' :: rest =>
    !(rest.takeWhile wordChar).isEmpty && rest.dropWhile wordChar = [')']
  | _ => false

/-- `VarString.single_reference(s)`: keep a full `$(name)` reference, wrap a
bare identifier as `$(name)`, otherwise raise `ValueError`. -/
def single_reference (s : String) : Except String String :=
  if isFullReference s then pure s
  else if !s.data.isEmpty && s.data.all wordChar then
    pure ("$(" ++ s ++ ")")
  else throw (s ++ " is not a valid single reference")

/-- A `VarString` created while loading a `KeyId` field. Such `VarString`s are
always created without a key id of their own (`VarString.load` is called as
`load_varstring(obj.get('KeyId'))`, leaving `key_id=None`), so they carry only
the raw template and the `_value` cache. -/
structure KVarString : Type where
  string : String
  cache : Option String

/-- A loaded `KeyId` field value: a raw decoded value (non-strings pass through
`VarString.load` unchanged, and `vars_in_name_only` passes everything through)
or a key-id `VarString`. -/
inductive KVal : Type where
  | y (v : Y)
  | vs (v : KVarString)

/-- A `VarString` (`parameters.py`): the raw template string, the key id it was
loaded with, and the `_value` cache, which `__init__` sets to the template when
it contains no references and which `value` fills on first read. -/
structure VarString : Type where
  string : String
  keyId : Option KVal
  cache : Option String

/-- A Python value held in an `SSMParameter` field after `load`: either a raw
decoded value (non-strings pass through `VarString.load` unchanged, and
`vars_in_name_only` passes everything through), a `VarString`, or a list built
by the `Value` list comprehension. -/
inductive FVal : Type where
  | y (v : Y)
  | vs (v : VarString)
  | listv (xs : List FVal)

/-- `VarString.__init__(s, key_id)`: extracts the reference names and pre-fills
the cache with the template itself when there are none
(`self._value = None if self.names else self.string`). -/
def VarString.init (s : String) (keyId : Option KVal) : VarString :=
  ⟨s, keyId, if (findRefs s.data).isEmpty then some s else none⟩

/-- `VarString.__init__` for a key-id `VarString` (no key id of its own). -/
def KVarString.init (s : String) : KVarString :=
  ⟨s, if (findRefs s.data).isEmpty then some s else none⟩

/-- `VarString.load(obj, key_id)`: wrap strings in a `VarString`; any other
value is returned unchanged. -/
def VarString.loadY (obj : Y) (keyId : Option KVal) : FVal :=
  match obj with
  | .s s => .vs (VarString.init s keyId)
  | v => .y v

/-- `VarString.load(obj)` when loading a `KeyId` field. -/
def KVal.loadY (obj : Y) : KVal :=
  match obj with
  | .s s => .vs (KVarString.init s)
  | v => .y v

/-- Python truthiness of a field value: `VarString` instances define no
`__bool__`/`__len__` and are always truthy. -/
def FVal.truthy : FVal → Bool
  | .y v => v.truthy
  | .vs _ => true
  | .listv xs => !xs.isEmpty

/-- Truthiness of an optional field value (`None` is falsy). -/
def truthyOptFVal : Option FVal → Bool
  | none => false
  | some f => f.truthy

/-- Python truthiness of a loaded key-id value. -/
def KVal.truthy : KVal → Bool
  | .y v => v.truthy
  | .vs _ => true

/-- Truthiness of an optional key-id value (`None` is falsy). -/
def truthyOptKVal : Option KVal → Bool
  | none => false
  | some k => k.truthy

/-- An `Input` (`files.py`): name, type (`type or 'String'` applied by
`__init__`), optional pattern/description/default, and the three value slots
`_value`, `_encrypted_value`, `_decrypted_value`, all `None` at construction. -/
structure Input : Type where
  name : String
  type : Y
  pattern : Option Y
  description : Option Y
  default : Option Y
  value : Option Y
  encryptedValue : Option Y
  decryptedValue : Option Y

/-- `Input.__init__(name, type, pattern, description, default)`. -/
def Input.init (name : String) (type : Option Y) (pattern description default : Option Y) :
    Input :=
  { name := name
    type := if truthyOptY type then type.getD (Y.s "String") else Y.s "String"
    pattern := pattern
    description := description
    default := default
    value := none
    encryptedValue := none
    decryptedValue := none }

/-- `Input.value_is_set`: `self._value or self._encrypted_value`, used as a
condition, so empty strings count as unset. -/
def Input.value_is_set (i : Input) : Bool :=
  truthyOptY i.value || truthyOptY i.encryptedValue

/-- `Input.set_value(value, encrypted=None)`: a SecureString value is stored as
ciphertext unless `encrypted` is explicitly `False`. -/
def Input.set_value (i : Input) (value : Y) (encrypted : Option Bool) : Input :=
  if i.type.isStr "SecureString" && encrypted ≠ some false then
    { i with encryptedValue := some value }
  else
    { i with value := some value }

/-- What `VarString.resolve` stores in `_VAR_VALUES` for a name: a resolved
`Input`, or one of the duck-typed `RegionResolver`/`AccountResolver` classes
returned by `Input.get_resolver` for the built-in names. -/
inductive Binding : Type where
  | input (i : Input)
  | region
  | account

/-- The ambient collaborators of a resolution run: the `_VAR_VALUES` table,
`SSMClient.decrypt`, and the memoized `SSMClient.get_region` /
`SSMClient.get_account` identity lookups. -/
structure Env : Type where
  vars : String → Option Binding
  decrypt : String → String → String
  regionName : String
  accountId : String

/-- `Input.get_value(key_id=None)` together with the resolver classes'
`get_value`: `RegionResolver`/`AccountResolver` delegate to the client; an
`Input` returns its plaintext, or decrypts (ciphertext if present, else the
stored value) when a truthy key id is supplied. The key id argument is the
already-dumped `VarString.dump(self._key_id)` value. -/
def Binding.get_value (env : Env) : Binding → Option Y → Except String (Option Y)
  | .region, _ => pure (some (.s env.regionName))
  | .account, _ => pure (some (.s env.accountId))
  | .input i, keyId =>
    if truthyOptY keyId then
      if truthyOptY i.decryptedValue then pure i.decryptedValue
      else do
        let k ← match keyId with
          | some (.s k) => pure k
          | _ => throw "TypeError: key id is not a string"
        if truthyOptY i.encryptedValue then
          match i.encryptedValue with
          | some (.s e) => pure (some (.s (env.decrypt e k)))
          | _ => throw "TypeError: ciphertext is not a string"
        else
          match i.value with
          | some (.s v) => pure (some (.s (env.decrypt v k)))
          | _ => throw "TypeError: plaintext is not a string"
    else pure i.value

/-- The loop body of `VarString.value`: for each referenced name in order,
look the name up in `_VAR_VALUES` (a `KeyError` if it was never resolved), ask
the binding for its value with the dumped key id, and substitute every
occurrence of `$(name)` via `pattern.sub`, whose replacement argument must be a
string and is subject to replacement-template escape processing. -/
def substLoop (env : Env) (kid : Option Y) : List String → String → Except String String
  | [], cur => pure cur
  | n :: rest, cur =>
    match env.vars n with
    | none => throw ("KeyError: " ++ n)
    | some b => do
      let vv ← b.get_value env kid
      match vv with
      | some (.s s) => do
        let repl ← processRepl ("$(" ++ n ++ ")") s.data
        substLoop env kid rest (String.mk (subRef n repl cur.data))
      | _ => throw "TypeError: re.sub replacement is not a string"

/-- The body of `VarString.value` for a key-id `VarString` (whose own key id is
`None`) when its cache is not usable. -/
def KVarString.computeE (env : Env) (s : String) : Except String String :=
  match findRefs s.data with
  | [] => pure s
  | ns => substLoop env none ns s

/-- The `VarString.value` property of a key-id `VarString`: a truthy cached
`_value` is returned as is, otherwise the value is recomputed. -/
def KVarString.valueE (env : Env) (v : KVarString) : Except String String :=
  match v.cache with
  | some c => if c.isEmpty then KVarString.computeE env v.string else pure c
  | none => KVarString.computeE env v.string

/-- `VarString.dump(obj)` on a loaded key-id value: a `VarString` is replaced
by its `value`; anything else is returned unchanged. -/
def KVal.dumpE (env : Env) : KVal → Except String Y
  | .y v => pure v
  | .vs v => (Y.s ·) <$> KVarString.valueE env v

/-- `self.dump(self._key_id)` inside `VarString.value`: `None` passes
through. -/
def KVal.dumpOptE (env : Env) : Option KVal → Except String (Option Y)
  | none => pure none
  | some k => some <$> KVal.dumpE env k

/-- The body of `VarString.value` when the cache is not usable: the raw
template run through the substitution loop over the extracted names. The key
id is dumped inside the loop in the source, but dumping is deterministic and
cached after the first iteration, so it is dumped once here; with no names the
loop body never runs and the key id is never dumped. -/
def VarString.computeE (env : Env) (s : String) (keyId : Option KVal) :
    Except String String :=
  match findRefs s.data with
  | [] => pure s
  | ns => do
    let kid ← KVal.dumpOptE env keyId
    substLoop env kid ns s

/-- The `VarString.value` property, as the value it returns: a truthy cached
`_value` is returned as is; otherwise the value is recomputed (an empty cached
string is falsy and recomputed too). -/
def VarString.valueE (env : Env) (v : VarString) : Except String String :=
  match v.cache with
  | some c => if c.isEmpty then VarString.computeE env v.string v.keyId else pure c
  | none => VarString.computeE env v.string v.keyId

/-- `VarString.dump(obj)`: a `VarString` is replaced by its `value`; anything
else is returned unchanged. -/
def FVal.dumpE (env : Env) : FVal → Except String FVal
  | .vs v => (fun s => FVal.y (Y.s s)) <$> VarString.valueE env v
  | f => pure f

/-- `VarString.dump(obj)` on an optional value: `None` passes through. -/
def FVal.dumpOptE (env : Env) : Option FVal → Except String (Option FVal)
  | none => pure none
  | some f => some <$> FVal.dumpE env f

/-- The `VarString.value` property together with its mutation of the `_value`
cache: returns the value and the `VarString` as left behind by the read. -/
def VarString.readValue (env : Env) (v : VarString) : Except String (String × VarString) :=
  let recompute : Except String (String × VarString) := do
    let val ← VarString.computeE env v.string v.keyId
    pure (val, ⟨v.string, v.keyId, some val⟩)
  match v.cache with
  | some c => if c.isEmpty then recompute else pure (c, v)
  | none => recompute

/-- An `SSMParameter` (`parameters.py`): the fields stored by `__init__`
(`_name`, `_type`, `_value`, `_allowed_pattern`, `_description`, `_key_id`,
`_overwrite`, `_disable`). The read-only metadata (`version`,
`last_modified_date`, `last_modified_user`) plays no role in the verified
operations and is omitted. -/
structure SSMParameter : Type where
  name : FVal
  type : Y
  value : Option FVal
  allowed_pattern : Option FVal
  description : Option Y
  key_id : Option KVal
  overwrite : Option Y
  disable : Option FVal

/-- `SSMParameter.__init__`: stores the fields after checking the secure-input
invariant (`key_id` truthy on a non-SecureString type, or SecureString without
a truthy `key_id`, raises `ValueError`). -/
def SSMParameter.init (name : FVal) (type : Y) (value : Option FVal)
    (allowed_pattern : Option FVal) (description : Option Y) (key_id : Option KVal)
    (overwrite : Option Y) (disable : Option FVal) : Except String SSMParameter :=
  if (truthyOptKVal key_id = true ∧ ¬ type.isStr "SecureString" = true)
      ∨ (type.isStr "SecureString" = true ∧ ¬ truthyOptKVal key_id = true) then
    throw "ValueError: Mismatched secure inputs on parameter"
  else
    pure ⟨name, type, value, allowed_pattern, description, key_id, overwrite, disable⟩

/-- `SSMParameter.load(obj, vars_in_name_only)`: build a parameter from a
decoded document fragment. `load_varstring` is the identity when
`vars_in_name_only` is set, else `VarString.load`. -/
def SSMParameter.load (obj : List (String × Y)) (vars_in_name_only : Bool) :
    Except String SSMParameter := do
  let lv : Y → Option KVal → FVal := fun o k =>
    if vars_in_name_only then .y o else VarString.loadY o k
  let name ← match alookup obj "Name" with
    | none => throw "KeyError: Name"
    | some nv => pure (VarString.loadY nv none)
  let type0 := alookup obj "Type"
  let type ← do
    if truthyOptY type0 then
      pure (type0.getD (Y.s "String"))
    else do
      -- the inference cascade of lines 308-314 computes a type from KeyId
      -- and the shape of Value ...
      let _cascade ←
        if (alookup obj "KeyId").isSome then pure (Y.s "SecureString")
        else match alookup obj "Value" with
          | none => throw "KeyError: Value"
          | some (.s _) => pure (Y.s "String")
          | some _ => pure (Y.s "StringList")
      -- ... but line 315 (`type = 'SecureString' if 'KeyId' in obj else
      -- 'String'`) immediately reassigns it, discarding the cascade
      pure (Y.s (if (alookup obj "KeyId").isSome then "SecureString" else "String"))
  let lvK : Y → KVal := fun o => if vars_in_name_only then .y o else KVal.loadY o
  let key_id := (alookup obj "KeyId").map lvK
  let value ← do
    if type.isStr "SecureString" then
      if ¬ truthyOptKVal key_id then
        throw "ValueError: SecureString requires KeyId"
      else match alookup obj "EncryptedValue" with
        | some ev => pure (some (lv ev key_id))
        | none => match alookup obj "Input" with
          | some iv =>
            match iv with
            | .s is' => do
              let r ← single_reference is'
              pure (some (lv (Y.s r) key_id))
            | _ => throw "TypeError: fullmatch argument is not a string"
          | none =>
            if (alookup obj "Value").isSome then
              throw "ValueError: Value cannot be used with SecureString"
            else pure none
    else match alookup obj "Value" with
      | some (.l xs) => pure (some (.listv (xs.map (fun s => lv s none))))
      | some v => pure (some (lv v none))
      | none => pure none
  let allowed_pattern := (alookup obj "AllowedPattern").map (fun v => lv v none)
  let description := alookup obj "Description"
  let overwrite := alookup obj "Overwrite"
  let disable := (match alookup obj "Disable" with
    | some v => some v
    | none => alookup obj "Disabled").map (fun v => lv v none)
  SSMParameter.init name type value allowed_pattern description key_id overwrite disable

/-- The `SSMParameter.disable` property: an unset `_disable` is `False`,
otherwise the truth value of the dumped field. -/
def SSMParameter.disableE (env : Env) (p : SSMParameter) : Except String Bool :=
  match p.disable with
  | none => pure false
  | some fv => do
    let d ← FVal.dumpE env fv
    pure d.truthy

/-- The `SSMParameter.value` property: an unset `_value` is allowed only on a
disabled parameter (returned as `None`) and raises `ValueError` otherwise; a
non-string dumped value is comma-joined from the dumped elements of `_value`. -/
def SSMParameter.valueE (env : Env) (p : SSMParameter) : Except String (Option FVal) :=
  match p.value with
  | none => do
    let d ← p.disableE env
    if d then pure none
    else throw "ValueError: Value missing for parameter"
  | some fv => do
    let v ← FVal.dumpE env fv
    match v with
    | .y (.s s) => pure (some (.y (.s s)))
    | .listv xs => do
      let parts ← xs.mapM (fun x => do
        let dx ← FVal.dumpE env x
        match dx with
        | .y (.s s) => pure s
        | _ => throw "TypeError: sequence item is not a string")
      pure (some (.y (.s (String.intercalate "," parts))))
    | .y (.l ys) => do
      let parts ← ys.mapM (fun x => match x with
        | .s s => pure (s : String)
        | _ => throw "TypeError: sequence item is not a string")
      pure (some (.y (.s (String.intercalate "," parts))))
    | .y (.m kvs) => pure (some (.y (.s (String.intercalate "," (kvs.map Prod.fst)))))
    | _ => throw "TypeError: argument is not iterable"

/-- The `SSMParameter.name` property (`VarString.dump(self._name)`; the name
validation in the source is commented out). -/
def SSMParameter.nameE (env : Env) (p : SSMParameter) : Except String FVal :=
  FVal.dumpE env p.name

/-- The `SSMParameter.allowed_pattern` property. -/
def SSMParameter.allowed_patternE (env : Env) (p : SSMParameter) :
    Except String (Option FVal) :=
  FVal.dumpOptE env p.allowed_pattern

/-- The `SSMParameter.key_id` property. -/
def SSMParameter.key_idE (env : Env) (p : SSMParameter) : Except String (Option Y) :=
  KVal.dumpOptE env p.key_id

/-- The `SSMParameter.overwrite` property: `bool(self._overwrite)` when set,
else the `OVERWRITE_DEFAULT` class flag. -/
def SSMParameter.overwriteE (overwriteDefault : Bool) (p : SSMParameter) : Bool :=
  match p.overwrite with
  | some v => v.truthy
  | none => overwriteDefault

/-- `SSMParameter.dump()`: `Name`, `Type` and `Value` always; `AllowedPattern`,
`Description` and `KeyId` only when truthy. -/
def SSMParameter.dump (env : Env) (p : SSMParameter) :
    Except String (List (String × Option FVal)) := do
  let n ← p.nameE env
  let v ← p.valueE env
  let d0 := [("Name", some n), ("Type", some (.y p.type)), ("Value", v)]
  let ap ← p.allowed_patternE env
  let d1 := if truthyOptFVal ap then d0 ++ [("AllowedPattern", ap)] else d0
  let d2 := if truthyOptY p.description then
      d1 ++ [("Description", p.description.map FVal.y)]
    else d1
  let ki ← p.key_idE env
  pure (if truthyOptY ki then d2 ++ [("KeyId", ki.map FVal.y)] else d2)

/-- One entry of `Input.load(obj)` (`files.py`): a bare string is shorthand for
`{'Type': <string>}`; a SecureString with a `Default` is rejected; the rest
feeds `Input.__init__`. -/
def Input.loadOne (name : String) (data : Y) : Except String Input := do
  let d ← match data with
    | .s t => pure [("Type", Y.s t)]
    | .m kvs => pure kvs
    | _ => throw "AttributeError: value has no attribute get"
  if ((match alookup d "Type" with
      | some t => t.isStr "SecureString"
      | none => false) && (alookup d "Default").isSome) then
    throw "ValueError: Defaults are not allowed for SecureString"
  else
    pure (Input.init name (alookup d "Type") (alookup d "Pattern")
      (alookup d "Description") (alookup d "Default"))

/-- `Input.load(obj)`: the mapping of constructed `Input`s keyed by name. -/
def Input.load (obj : List (String × Y)) : Except String (List (String × Input)) :=
  obj.foldlM (fun acc kv => do
    let i ← Input.loadOne kv.1 kv.2
    pure (dictSet acc kv.1 i)) []

/-- What one call of the `resolver` closure produced by `Input.get_resolver`
does for a name: return a binding without prompting, create a fresh `Input` and
prompt for it, prompt for an existing unset `Input`, or raise `InputError`.
The `echo` argument only shapes the interactive prompt itself. -/
inductive ResolverOutcome : Type where
  | binding (b : Binding)
  | promptNew (name : String)
  | promptExisting (i : Input)

/-- The `resolver(name)` closure of `Input.get_resolver(inputs, prompt, echo)`:
names absent from `inputs` resolve to the `RegionResolver`/`AccountResolver`
delegates when they are the built-in names, else are freshly prompted or raise;
names present in `inputs` resolve to their `Input`, prompting if it has no
value set. -/
def Input.resolveName (inputs : List (String × Input)) (prompt : Bool) (name : String) :
    Except String ResolverOutcome :=
  match alookup inputs name with
  | none =>
    if name = "Region" then pure (.binding .region)
    else if name = "Account" then pure (.binding .account)
    else if prompt then pure (.promptNew name)
    else throw ("InputError: Input " ++ name ++ " not given")
  | some i =>
    if i.value_is_set then pure (.binding (.input i))
    else if prompt then pure (.promptExisting i)
    else throw ("InputError: Input " ++ name ++ " not given")

/-- The same-name branch of `Input.merge_inputs`: conflicting types or
conflicted patterns raise; the first input keeps its pattern/description,
adopting the other side's only where its own is falsy. -/
def Input.merge_one (a b : Input) : Except String Input :=
  if a.type ≠ b.type then throw "TypeError: Conflicting input types"
  else if truthyOptY a.pattern ∧ truthyOptY b.pattern ∧ a.pattern ≠ b.pattern then
    throw "ValueError: Conflicting input patterns"
  else
    let a1 := if truthyOptY b.pattern ∧ ¬ truthyOptY a.pattern then
        { a with pattern := b.pattern } else a
    let a2 := if truthyOptY b.description ∧ ¬ truthyOptY a1.description then
        { a1 with description := b.description } else a1
    pure a2

/-- `Input.merge_inputs(inputs, inputs_to_merge)`: merge the second mapping
into the first. -/
def Input.merge_inputs (inputs toMerge : List (String × Input)) :
    Except String (List (String × Input)) :=
  toMerge.foldlM (fun acc kv =>
    match alookup acc kv.1 with
    | none => pure (dictSet acc kv.1 kv.2)
    | some i => do
      let m ← Input.merge_one i kv.2
      pure (dictSet acc kv.1 m)) inputs

/-- The result of `parse_parameter_file` (the `ParameterFileData` namedtuple). -/
structure ParameterFileData : Type where
  inputs : List (String × Input)
  parameters : List (String × SSMParameter)
  flush : Y

/-- The entry desugaring of `parse_parameter_file`: a bare string is a String
value, a sequence is a StringList value, a mapping stands as is. -/
def desugarEntry : Y → Except String (List (String × Y))
  | .s v => pure [("Type", Y.s "String"), ("Value", Y.s v)]
  | .l xs => pure [("Type", Y.s "StringList"), ("Value", Y.l xs)]
  | .m kvs => pure kvs
  | .b _ => throw "TypeError: update argument is not iterable"

/-- The parameter loop of `parse_parameter_file`: keys starting with `.` are
skipped; each other entry is desugared, layered over `{'Name': name}` and the
`.COMMON` defaults, and handed to `SSMParameter.load`. -/
def parseParamsLoop (common : Option Y) (vino : Bool) :
    List (String × SSMParameter) → List (String × Y) →
    Except String (List (String × SSMParameter))
  | acc, [] => pure acc
  | acc, (name, data) :: rest =>
    if startsWithDot name then parseParamsLoop common vino acc rest
    else do
      let ck ← match common with
        | none => pure []
        | some (.m kvs) => pure kvs
        | some _ => throw "TypeError: update argument is not a mapping"
      let d ← desugarEntry data
      let merged := dictUpdate (dictUpdate [("Name", Y.s name)] ck) d
      let p ← SSMParameter.load merged vino
      parseParamsLoop common vino (dictSet acc name p) rest

/-- `parse_parameter_file(obj, vars_in_name_only)`. -/
def parse_parameter_file (obj : List (String × Y)) (vars_in_name_only : Bool) :
    Except String ParameterFileData := do
  let inputsY ← match alookup obj ".INPUT" with
    | none => pure []
    | some (.m kvs) => pure kvs
    | some _ => throw "AttributeError: value has no attribute iteritems"
  let inputs ← Input.load inputsY
  let common := alookup obj ".COMMON"
  let flush := match alookup obj ".FLUSH" with
    | none => Y.l []
    | some (.s s) => Y.l [Y.s s]
    | some v => v
  let parameters ← parseParamsLoop common vars_in_name_only [] obj
  pure ⟨inputs, parameters, flush⟩

/-- A value of the document mapping produced by `compile_parameter_file`:
either a decoded value (the `.FLUSH` entry) or a dumped parameter fragment. -/
inductive CVal : Type where
  | y (v : Y)
  | frag (kvs : List (String × Option FVal))

/-- The loop body of `compile_parameter_file`: skip a disabled parameter under
`ignore_disabled`, otherwise dump it, pop the dumped `Name` to use as the
document key, and store the rest of the fragment under it. -/
def compileStep (env : Env) (ignore_disabled : Bool)
    (acc : List (String × CVal)) (p : SSMParameter) : Except String (List (String × CVal)) := do
  let dis ← p.disableE env
  if dis && ignore_disabled then pure acc
  else do
    let data ← p.dump env
    let nm ← match alookup data "Name" with
      | some (some (FVal.y (Y.s s))) => pure s
      | _ => throw "TypeError: dumped name is not a string key"
    let rest := data.filter (fun kv => kv.1 ≠ "Name")
    pure (dictSet acc nm (.frag rest))

/-- `compile_parameter_file(parameters, flush, ignore_disabled)`: an optional
`.FLUSH` entry when `flush` is truthy, then one entry per parameter (disabled
ones skipped under `ignore_disabled`), keyed by the dumped `Name` and holding
the rest of the dumped fragment. -/
def compile_parameter_file (env : Env) (parameters : List SSMParameter)
    (flush : Option Y) (ignore_disabled : Bool) : Except String (List (String × CVal)) := do
  let d0 : List (String × CVal) := match flush with
    | some f => if f.truthy then [(".FLUSH", .y f)] else []
    | none => []
  parameters.foldlM (compileStep env ignore_disabled) d0

/-- One `put_parameter` request as assembled by `SSMClient.batch_put`: `Name`,
`Type` and `Value` always; `AllowedPattern`, `Description`, `KeyId` and
`Overwrite` only when the corresponding property is truthy. -/
structure PutRequest : Type where
  name : FVal
  type : Y
  value : Option FVal
  allowedPattern : Option FVal
  description : Option Y
  keyId : Option Y
  overwrite : Option Bool

/-- `SSMClient.batch_put(*args)`: the sequence of `put_parameter` requests it
issues. The outer loop runs once per `_batch(args, 10)` chunk, but the inner
loop of the source iterates over `args` (not over the chunk), skipping disabled
parameters. -/
def SSMClient.batch_put (env : Env) (overwriteDefault : Bool)
    (args : List SSMParameter) : Except String (List PutRequest) :=
  (batchSlices args 10).foldlM (fun acc _parameters =>
    args.foldlM (fun acc2 p => do
      let dis ← p.disableE env
      if dis then pure acc2
      else do
        let n ← p.nameE env
        let v ← p.valueE env
        let ap ← p.allowed_patternE env
        let ki ← p.key_idE env
        pure (acc2 ++ [{
          name := n
          type := p.type
          value := v
          allowedPattern := if truthyOptFVal ap then ap else none
          description := if truthyOptY p.description then p.description else none
          keyId := if truthyOptY ki then ki else none
          overwrite := if p.overwriteE overwriteDefault then some true else none }])) acc) []

/-- The simultaneous, literal substitution described by the specification:
scan the template left to right and replace each `$(name)` occurrence by
`f name` (the literal text of that Input's resolved value), leaving
unreplaced text — including the inserted values — untouched. The scanner
states mirror `findRefsAux`; on a failed candidate the consumed characters are
emitted unchanged. -/
def specSubstituteAux (f : String → Option (List Char)) : ScanState → List Char → List Char
  | .plain, [] => []
  | .sawDollar, [] => ['$']
  | .inName acc, [] => '$' :: '(' :: acc
  | .plain, c :: rest =>
    if c = '$' then specSubstituteAux f .sawDollar rest
    else c :: specSubstituteAux f .plain rest
  | .sawDollar, c :: rest =>
    if c = '(' then specSubstituteAux f (.inName []) rest
    else if c = '$' then '$' :: specSubstituteAux f .sawDollar rest
    else '$' :: c :: specSubstituteAux f .plain rest
  | .inName acc, c :: rest =>
    if wordChar c then specSubstituteAux f (.inName (acc ++ [c])) rest
    else if c = ')' && !acc.isEmpty then
      (match f (String.mk acc) with
       | some v => v
       | none => '$' :: '(' :: acc ++ [')']) ++ specSubstituteAux f .plain rest
    else if c = '$' then '$' :: '(' :: acc ++ specSubstituteAux f .sawDollar rest
    else '$' :: '(' :: acc ++ (c :: specSubstituteAux f .plain rest)

/-- Simultaneous literal substitution of resolved values into a template, as
the specification words it. -/
def specSubstitute (f : String → Option (List Char)) (l : List Char) : List Char :=
  specSubstituteAux f .plain l

/-- The resolved plaintext of a name under an environment: the stored string
value of the bound `Input`, when there is one. -/
def resolvedPlain (env : Env) (n : String) : Option (List Char) :=
  match env.vars n with
  | some (.input i) =>
    match i.value with
    | some (.s s) => some s.data
    | _ => none
  | _ => none

/-- A parsed template segment: a literal chunk or a `$(name)` reference. -/
inductive Seg : Type where
  | lit (s : List Char)
  | ref (n : String)

/-- Render a segment list back into the template text. -/
def segRender : List Seg → List Char
  | [] => []
  | .lit s :: rest => s ++ segRender rest
  | .ref n :: rest => refPat n ++ segRender rest

/-- Well-formedness of a segment: literal chunks contain no `$`, reference
names are nonempty words. -/
def Seg.ok : Seg → Bool
  | .lit s => s.all (fun c => c ≠ '$')
  | .ref n => !n.data.isEmpty && n.data.all wordChar

/-- The reference names of a segment list, in order, duplicates kept. -/
def refNames : List Seg → List String
  | [] => []
  | .lit _ :: rest => refNames rest
  | .ref n :: rest => n :: refNames rest

/-- Replace every reference to `n` by the literal `v`. -/
def substSeg (n : String) (v : List Char) : List Seg → List Seg :=
  List.map (fun g => match g with
    | .ref m => if m = n then .lit v else .ref m
    | g => g)

/-- Replace every resolvable reference by its value. -/
def segResolve (f : String → Option (List Char)) : List Seg → List Seg :=
  List.map (fun g => match g with
    | .ref m =>
      match f m with
      | some v => .lit v
      | none => .ref m
    | g => g)

deriving instance DecidableEq for KVarString, KVal, VarString, Input, Binding, ResolverOutcome

/-- The validation pattern an `Input` effectively carries: its `pattern`
attribute when truthy, else nothing ("fields actually set" in the merge
rule). -/
def Input.patternView (i : Input) : Option Y :=
  if truthyOptY i.pattern then i.pattern else none

/-! ## Concrete evaluation environments -/

/-- An environment for runs that resolve no variables. -/
def envNone : Env :=
  ⟨fun _ => none, fun c _ => c, "test-region", "123456789012"⟩

/-- A resolved `Input` of type `String` carrying a plain value. -/
def strInput (name value : String) : Input :=
  { name := name, type := Y.s "String", pattern := none, description := none,
    default := none, value := some (Y.s value), encryptedValue := none,
    decryptedValue := none }

/-- An environment binding `A` to an Input whose resolved value is itself a
`$(B)` reference text, and `B` to `x`. -/
def envC3 : Env :=
  ⟨fun n => if n = "A" then some (.input (strInput "A" "$(B)"))
    else if n = "B" then some (.input (strInput "B" "x")) else none,
   fun c _ => c, "test-region", "123456789012"⟩

/-- An environment binding `A` to `1` and `B` to `2`, both plain. -/
def envW3 : Env :=
  ⟨fun n => if n = "A" then some (.input (strInput "A" "1"))
    else if n = "B" then some (.input (strInput "B" "2")) else none,
   fun c _ => c, "test-region", "123456789012"⟩

/-- The segments of the template `$(A) $(B)`. -/
def segsW3 : List Seg :=
  [.ref "A", .lit [' '], .ref "B"]

/-- Eleven enabled parameters with literal names and values, as passed to one
`batch_put` call. -/
def elevenParams : List SSMParameter :=
  (List.range 11).map (fun i =>
    ⟨.vs (VarString.init ("/app/p" ++ toString i) none), .s "String",
      some (.vs (VarString.init "v" none)), none, none, none, none, none⟩)

/-! ## A structured grammar of parameter documents, for the round-trip claim -/

/-- A parameter `Value` in the structured document grammar: a plain string or
a sequence of plain strings (an SSM StringList). -/
inductive GVal : Type where
  | s (v : String)
  | l (vs : List String)

/-- The SSM type a grammar value stands for. -/
def GVal.typeName : GVal → String
  | .s _ => "String"
  | .l _ => "StringList"

/-- The grammar value as a decoded document value. -/
def GVal.toY : GVal → Y
  | .s v => Y.s v
  | .l vs => Y.l (vs.map Y.s)

/-- The string the `value` property renders a grammar value as: a sequence is
comma-joined. -/
def GVal.joined : GVal → String
  | .s v => v
  | .l vs => String.intercalate "," vs

/-- A document entry in the structured grammar: string shorthand, sequence
shorthand, or a full mapping with an explicit `Type`, a matching `Value`, and
optional `AllowedPattern` and `Description` fields. -/
inductive GEntry : Type where
  | strSugar (v : String)
  | listSugar (vs : List String)
  | full (value : GVal) (ap : Option String) (desc : Option String)

/-- The mapping body a grammar entry desugars to in `parse_parameter_file`
(shorthand expanded, optional fields kept only when present). -/
def rawEntry : GEntry → List (String × Y)
  | .strSugar v => [("Type", Y.s "String"), ("Value", Y.s v)]
  | .listSugar vs => [("Type", Y.s "StringList"), ("Value", Y.l (vs.map Y.s))]
  | .full value ap desc =>
    [("Type", Y.s value.typeName), ("Value", value.toY)]
      ++ (match ap with
          | none => []
          | some a => [("AllowedPattern", Y.s a)])
      ++ (match desc with
          | none => []
          | some d => [("Description", Y.s d)])

/-- The grammar entry as the decoded document value it denotes. -/
def GEntry.toEntryY : GEntry → Y
  | .strSugar v => Y.s v
  | .listSugar vs => Y.l (vs.map Y.s)
  | .full value ap desc => Y.m (rawEntry (.full value ap desc))

/-- Reference-freedom of a grammar value: no string of it contains a
`$(name)` reference. -/
def GVal.noRefs : GVal → Bool
  | .s v => (findRefs v.data).isEmpty
  | .l vs => vs.all (fun s => (findRefs s.data).isEmpty)

/-- Well-formedness of a grammar entry: its value strings are reference-free,
an `AllowedPattern` is a nonempty reference-free string, and a `Description`
is a nonempty string (empty ones are falsy and would be dropped by `dump`). -/
def GEntry.wf : GEntry → Bool
  | .strSugar v => (findRefs v.data).isEmpty
  | .listSugar vs => vs.all (fun s => (findRefs s.data).isEmpty)
  | .full value ap desc =>
    value.noRefs
      && (match ap with
          | none => true
          | some a => (findRefs a.data).isEmpty && !a.isEmpty)
      && (match desc with
          | none => true
          | some d => !d.isEmpty)

/-- The `_value` field `SSMParameter.load` stores for a grammar value. -/
def GVal.loadedValue : GVal → Option FVal
  | .s v => some (.vs (VarString.init v none))
  | .l vs => some (.listv ((vs.map Y.s).map (fun y => VarString.loadY y none)))

/-- The `SSMParameter` that loading a grammar entry under the key `n`
produces. -/
def pOf (n : String) : GEntry → SSMParameter
  | .strSugar v =>
    ⟨.vs (VarString.init n none), Y.s "String", some (.vs (VarString.init v none)),
      none, none, none, none, none⟩
  | .listSugar vs =>
    ⟨.vs (VarString.init n none), Y.s "StringList",
      some (.listv ((vs.map Y.s).map (fun y => VarString.loadY y none))),
      none, none, none, none, none⟩
  | .full value ap desc =>
    ⟨.vs (VarString.init n none), Y.s value.typeName, value.loadedValue,
      (match ap with
       | none => none
       | some a => some (.vs (VarString.init a none))),
      (match desc with
       | none => none
       | some d => some (Y.s d)), none, none, none⟩

/-- The document fragment `compile_parameter_file` stores for a grammar entry:
`Type` and the joined `Value` first, then the optional fields, `Name` popped
out as the key. -/
def expectedFrag : GEntry → List (String × Option FVal)
  | .strSugar v => [("Type", some (.y (Y.s "String"))), ("Value", some (.y (Y.s v)))]
  | .listSugar vs =>
    [("Type", some (.y (Y.s "StringList"))),
     ("Value", some (.y (Y.s (String.intercalate "," vs))))]
  | .full value ap desc =>
    [("Type", some (.y (Y.s value.typeName))), ("Value", some (.y (Y.s value.joined)))]
      ++ (match ap with
          | none => []
          | some a => [("AllowedPattern", some (.y (Y.s a)))])
      ++ (match desc with
          | none => []
          | some d => [("Description", some (.y (Y.s d)))])

/-- A three-entry structured document: string shorthand, sequence shorthand,
and a full mapping carrying an `AllowedPattern` and a `Description`. -/
def docW6 : List (String × GEntry) :=
  [("/s", .strSugar "hello"), ("/l", .listSugar ["a", "b"]),
   ("/f", .full (.s "v") (some "pat") (some "a desc"))]

theorem Y.isStr_iff (y : Y) (s : String) : y.isStr s = true ↔ y = Y.s s := by
  cases y with
  | s t => simp [Y.isStr]
  | b v => simp [Y.isStr]
  | l xs => simp [Y.isStr]
  | m kvs => simp [Y.isStr]

theorem exceptBindOk {ε α β : Type} (a : α) (f : α → Except ε β) :
    Except.bind (.ok a) f = f a := rfl

theorem bindOk {ε α β : Type} (a : α) (f : α → Except ε β) :
    (Except.ok a : Except ε α) >>= f = f a := rfl

/-- C1: `SSMParameter.load` on a fragment with no `Type`, no `KeyId` and a
sequence `Value` yields type `String`, not the `StringList` the inference
cascade (and the specification) call for: line 315 reassigns the type,
discarding the cascade's result. -/
theorem C1_load_list_value_infers_String :
    (SSMParameter.load [("Name", Y.s "/x"), ("Value", Y.l [Y.s "a", Y.s "b"])] false).map
        SSMParameter.type = .ok (Y.s "String")
      ∧ Y.s "String" ≠ Y.s "StringList" := by
  exact ⟨rfl, by decide⟩

/-- C2: `batch_put` on eleven enabled parameters issues twenty-two
`put_parameter` requests — the inner loop iterates over all of `args` once per
`_batch` chunk, so every parameter is written once per chunk instead of exactly
once; with at most ten parameters (a single chunk) each is written once. -/
theorem C2_batch_put_duplicates_across_chunks :
    elevenParams.length = 11
      ∧ (SSMClient.batch_put envNone false elevenParams).map List.length = .ok 22
      ∧ (SSMClient.batch_put envNone false (elevenParams.take 10)).map List.length
          = .ok 10 := by
  refine ⟨rfl, ?_, ?_⟩ <;> decide

/-- C8: `SSMParameter.__init__` succeeds exactly when a truthy key id
accompanies type `SecureString` and only then; a truthy key id on any other
type, or `SecureString` without one, raises. -/
theorem C8_keyid_iff_SecureString (name : FVal) (type : Y) (value : Option FVal)
    (ap : Option FVal) (desc : Option Y) (key_id : Option KVal) (ow : Option Y)
    (dis : Option FVal) :
    (∃ p, SSMParameter.init name type value ap desc key_id ow dis = .ok p) ↔
      (truthyOptKVal key_id = true ↔ type = Y.s "SecureString") := by
  unfold SSMParameter.init
  split
  · rename_i h
    constructor
    · rintro ⟨p, hp⟩
      cases hp
    · intro hiff
      exfalso
      rcases h with ⟨hk, ht⟩ | ⟨ht, hk⟩
      · exact ht ((Y.isStr_iff type "SecureString").mpr (hiff.mp hk))
      · exact hk (hiff.mpr ((Y.isStr_iff type "SecureString").mp ht))
  · rename_i h
    push_neg at h
    refine ⟨fun _ => ⟨?_, ?_⟩, fun _ => ⟨_, rfl⟩⟩
    · intro hk
      exact (Y.isStr_iff type "SecureString").mp (h.1 hk)
    · intro ht
      exact h.2 ((Y.isStr_iff type "SecureString").mpr ht)

/-- C9: a parameter with no stored value does not raise from the `value`
property when its `disable` flag resolves true (it returns `None`), and raises
the missing-value `ValueError` when it resolves false. -/
theorem C9_unset_value_iff_disabled (env : Env) (p : SSMParameter)
    (hv : p.value = none) :
    (p.disableE env = .ok true → p.valueE env = .ok none)
      ∧ (p.disableE env = .ok false → (p.valueE env).isOk = false) := by
  constructor
  · intro hd
    simp only [SSMParameter.valueE, hv, hd]
    rfl
  · intro hd
    simp only [SSMParameter.valueE, hv, hd]
    rfl

/-- Witness for C9 at concrete parameters: one disabled with `Disable: true`,
one enabled, both with no value. -/
theorem C9_unset_value_iff_disabled_witness :
    (SSMParameter.mk (.vs (VarString.init "/n" none)) (.s "String") none none none
        none none (some (.y (.b true)))).valueE envNone = .ok none
      ∧ ((SSMParameter.mk (.vs (VarString.init "/n" none)) (.s "String") none none none
        none none none).valueE envNone).isOk = false :=
  ⟨(C9_unset_value_iff_disabled envNone _ rfl).1 rfl,
   (C9_unset_value_iff_disabled envNone _ rfl).2 rfl⟩

/-- C10: setting an `Input`'s value to the empty string leaves
`value_is_set()` false (empty strings are falsy), so the resolver treats the
name as unsupplied: it prompts again when prompting is enabled and raises
`InputError` when it is disabled. -/
theorem C10_empty_string_counts_as_unset (i0 : Input) (enc : Option Bool)
    (inputs : List (String × Input)) (n : String)
    (h1 : truthyOptY i0.value = false) (h2 : truthyOptY i0.encryptedValue = false)
    (hl : alookup inputs n = some (i0.set_value (.s "") enc)) :
    (i0.set_value (.s "") enc).value_is_set = false
      ∧ Input.resolveName inputs true n = .ok (.promptExisting (i0.set_value (.s "") enc))
      ∧ (Input.resolveName inputs false n).isOk = false := by
  have hset : (i0.set_value (.s "") enc).value_is_set = false := by
    unfold Input.set_value
    split
    · show (truthyOptY i0.value || truthyOptY (some (Y.s ""))) = false
      rw [h1]
      decide
    · show (truthyOptY (some (Y.s "")) || truthyOptY i0.encryptedValue) = false
      rw [h2]
      decide
  refine ⟨hset, ?_, ?_⟩
  · simp only [Input.resolveName, hl, hset]
    rfl
  · simp only [Input.resolveName, hl, hset]
    rfl

/-- Witness for C10 at a concrete fresh `Input` of type `String`. -/
theorem C10_empty_string_counts_as_unset_witness :
    ((Input.init "I" none none none none).set_value (.s "") none).value_is_set = false
      ∧ Input.resolveName
          [("I", (Input.init "I" none none none none).set_value (.s "") none)] true "I"
          = .ok (.promptExisting ((Input.init "I" none none none none).set_value (.s "") none))
      ∧ (Input.resolveName
          [("I", (Input.init "I" none none none none).set_value (.s "") none)] false "I").isOk
          = false :=
  C10_empty_string_counts_as_unset (Input.init "I" none none none none) none _ "I"
    rfl rfl rfl

theorem dictSet_append {α : Type} (l : List (String × α)) (k : String) (v : α)
    (h : k ∉ l.map Prod.fst) : dictSet l k v = l ++ [(k, v)] := by
  induction l with
  | nil => rfl
  | cons kv rest ih =>
    obtain ⟨k', v'⟩ := kv
    simp only [List.map_cons, List.mem_cons] at h
    push_neg at h
    simp only [dictSet]
    rw [if_neg (fun hh => h.1 hh.symm), ih h.2]
    rfl

theorem parseParamsLoop_keys (common : Option Y) (vino : Bool) :
    ∀ (l : List (String × Y)) (acc res : List (String × SSMParameter)),
      (acc.map Prod.fst ++ (l.map Prod.fst).filter (fun k => !startsWithDot k)).Nodup →
      parseParamsLoop common vino acc l = .ok res →
      res.map Prod.fst
        = acc.map Prod.fst ++ (l.map Prod.fst).filter (fun k => !startsWithDot k) := by
  intro l
  induction l with
  | nil =>
    intro acc res _ hp
    cases hp
    simp
  | cons kv rest ih =>
    intro acc res hnd hp
    match kv with
    | (name, data) =>
      simp only [parseParamsLoop] at hp
      by_cases hdot : startsWithDot name = true
      · rw [if_pos hdot] at hp
        simp only [List.map_cons, List.filter_cons, hdot] at hnd ⊢
        simp only [Bool.not_true, Bool.false_eq_true, if_false] at hnd ⊢
        exact ih acc res hnd hp
      · rw [if_neg hdot] at hp
        simp only [List.map_cons, List.filter_cons, hdot] at hnd ⊢
        simp only [Bool.not_false, if_true] at hnd ⊢
        have hrest : ∃ ck : List (String × Y),
            Except.bind (desugarEntry data) (fun d =>
              Except.bind (SSMParameter.load
                  (dictUpdate (dictUpdate [("Name", Y.s name)] ck) d) vino)
                (fun p => parseParamsLoop common vino (dictSet acc name p) rest))
              = .ok res := by
          rcases common with _ | cy
          · exact ⟨[], hp⟩
          · rcases cy with s | bb | xs | kvs
            · exact Except.noConfusion hp
            · exact Except.noConfusion hp
            · exact Except.noConfusion hp
            · exact ⟨kvs, hp⟩
        obtain ⟨ck, hp2⟩ := hrest
        cases hd : desugarEntry data with
        | error e => rw [hd] at hp2; cases hp2
        | ok dd =>
          rw [hd] at hp2
          simp only [exceptBindOk] at hp2
          cases hl : SSMParameter.load
              (dictUpdate (dictUpdate [("Name", Y.s name)] ck) dd) vino with
          | error e => rw [hl] at hp2; cases hp2
          | ok p =>
            rw [hl] at hp2
            simp only [exceptBindOk] at hp2
            have hname : name ∉ acc.map Prod.fst := by
              intro hmem
              have := (List.nodup_append.mp hnd).2.2
              exact this hmem (by simp)
            rw [dictSet_append acc name p hname] at hp2
            have hnd' : ((acc ++ [(name, p)]).map Prod.fst
                ++ (rest.map Prod.fst).filter (fun k => !startsWithDot k)).Nodup := by
              simp only [List.map_append, List.map_cons, List.map_nil]
              have hperm : List.Perm
                  (acc.map Prod.fst ++ name
                    :: (rest.map Prod.fst).filter (fun k => !startsWithDot k))
                  ((acc.map Prod.fst ++ [name])
                    ++ (rest.map Prod.fst).filter (fun k => !startsWithDot k)) := by
                simp only [List.append_assoc, List.singleton_append]
                exact List.Perm.refl _
              exact (hperm.nodup_iff).mp hnd
            have := ih (acc ++ [(name, p)]) res hnd' hp2
            simpa [List.map_append] using this

/-- C4 counterexample: a top-level key `.X` is not one of the three reserved
names, yet `parse_parameter_file` produces no parameter for it — every
dot-prefixed key is skipped. -/
theorem C4_counterexample_dot_key_skipped :
    (parse_parameter_file [(".X", Y.s "v"), ("/p", Y.s "w")] false).map
        (fun d => d.parameters.map Prod.fst) = .ok ["/p"]
      ∧ (".X" : String) ∉ ([".INPUT", ".COMMON", ".FLUSH"] : List String) := by
  exact ⟨by decide, by decide⟩

/-- C4 (amended): `parse_parameter_file` produces exactly one parameter entry
per top-level key that does not start with `.`; the three reserved keys are
extracted and all other dot-prefixed keys are ignored. -/
theorem C4_nondot_keys_become_parameters (obj : List (String × Y)) (vino : Bool)
    (pfd : ParameterFileData)
    (hnd : ((obj.map Prod.fst).filter (fun k => !startsWithDot k)).Nodup)
    (hp : parse_parameter_file obj vino = .ok pfd) :
    pfd.parameters.map Prod.fst
      = (obj.map Prod.fst).filter (fun k => !startsWithDot k) := by
  simp only [parse_parameter_file] at hp
  have hrest : ∃ iy : List (String × Y),
      Except.bind (Input.load iy) (fun inputs =>
        Except.bind (parseParamsLoop (alookup obj ".COMMON") vino [] obj)
          (fun parameters => pure ⟨inputs, parameters,
            match alookup obj ".FLUSH" with
            | none => Y.l []
            | some (.s s) => Y.l [Y.s s]
            | some v => v⟩)) = .ok pfd := by
    cases he : alookup obj ".INPUT" with
    | none => exact ⟨[], by rw [he] at hp; exact hp⟩
    | some yv =>
      cases yv with
      | s s => rw [he] at hp; exact Except.noConfusion hp
      | b bb => rw [he] at hp; exact Except.noConfusion hp
      | l xs => rw [he] at hp; exact Except.noConfusion hp
      | m kvs => exact ⟨kvs, by rw [he] at hp; exact hp⟩
  obtain ⟨iy, hp2⟩ := hrest
  cases hi : Input.load iy with
  | error e => rw [hi] at hp2; cases hp2
  | ok ins =>
    rw [hi] at hp2
    simp only [exceptBindOk] at hp2
    cases hloop : parseParamsLoop (alookup obj ".COMMON") vino [] obj with
    | error e => rw [hloop] at hp2; cases hp2
    | ok params =>
      rw [hloop] at hp2
      simp only [exceptBindOk] at hp2
      have hkeys := parseParamsLoop_keys (alookup obj ".COMMON") vino obj [] params
        (by simpa using hnd) hloop
      cases hp2
      simpa using hkeys

/-- Witness for C4 (amended) at a document with a parameter key, a reserved
key and a stray dot key. -/
theorem C4_nondot_keys_become_parameters_witness :
    (parse_parameter_file [(".FLUSH", Y.s "/a"), ("/p", Y.s "w"), (".X", Y.s "v")] false).map
      (fun d => d.parameters.map Prod.fst) = .ok ["/p"] := by
  cases hp : parse_parameter_file [(".FLUSH", Y.s "/a"), ("/p", Y.s "w"), (".X", Y.s "v")]
      false with
  | error e =>
    have hok : (parse_parameter_file [(".FLUSH", Y.s "/a"), ("/p", Y.s "w"), (".X", Y.s "v")]
        false).isOk = true := by decide
    rw [hp] at hok
    exact Bool.noConfusion hok
  | ok pfd =>
    have hkeys := C4_nondot_keys_become_parameters _ false pfd (by decide) hp
    show Except.ok (pfd.parameters.map Prod.fst) = Except.ok ["/p"]
    rw [hkeys]
    decide

/-- C5 counterexample: a user `Input` named `Region` with a value set shadows
the built-in `RegionResolver` — the registry is consulted first, so the
delegated lookup is not used. -/
theorem C5_counterexample_user_input_shadows_Region :
    Input.resolveName
        [("Region", (Input.init "Region" (some (Y.s "String")) none none none).set_value
          (Y.s "us-east-1") none)] true "Region"
      = .ok (.binding (.input ((Input.init "Region" (some (Y.s "String")) none none none).set_value
          (Y.s "us-east-1") none)))
      ∧ ResolverOutcome.binding (.input ((Input.init "Region" (some (Y.s "String")) none none none).set_value
          (Y.s "us-east-1") none)) ≠ .binding .region := by
  exact ⟨by decide, by decide⟩

/-- C5 (amended): when the name is absent from the Input mapping, the built-in
names `Region` and `Account` resolve to the delegated `RegionResolver` /
`AccountResolver`, whose `get_value` returns the client's current region /
account id for any key id; a user Input of the same name takes precedence. -/
theorem C5_builtins_resolve_when_absent (inputs : List (String × Input)) (prompt : Bool) :
    (alookup inputs "Region" = none →
      Input.resolveName inputs prompt "Region" = .ok (.binding .region))
      ∧ (alookup inputs "Account" = none →
        Input.resolveName inputs prompt "Account" = .ok (.binding .account))
      ∧ (∀ (env : Env) (kid : Option Y),
          Binding.get_value env .region kid = .ok (some (.s env.regionName)))
      ∧ (∀ (env : Env) (kid : Option Y),
          Binding.get_value env .account kid = .ok (some (.s env.accountId))) := by
  refine ⟨?_, ?_, fun env kid => rfl, fun env kid => rfl⟩
  · intro h
    simp only [Input.resolveName, h]
    rfl
  · intro h
    simp only [Input.resolveName, h]
    rfl

/-- Witness for C5 (amended) at an empty Input mapping. -/
theorem C5_builtins_resolve_when_absent_witness :
    Input.resolveName [] true "Region" = .ok (.binding .region)
      ∧ Input.resolveName [] true "Account" = .ok (.binding .account)
      ∧ Binding.get_value envNone .region none = .ok (some (.s envNone.regionName)) :=
  ⟨(C5_builtins_resolve_when_absent [] true).1 rfl,
   (C5_builtins_resolve_when_absent [] true).2.1 rfl,
   (C5_builtins_resolve_when_absent [] true).2.2.1 envNone none⟩

/-- C7: merging two same-named Inputs with equal types and non-conflicting
patterns succeeds in either order; the merged type equals the common type and
the effectively-set pattern is order-independent: the truthy pattern of either
side (preferring the first when both are set, in which case they are equal). -/
theorem C7_merge_order_independent (a b : Input) (ht : a.type = b.type)
    (hp : ¬(truthyOptY a.pattern = true ∧ truthyOptY b.pattern = true
      ∧ a.pattern ≠ b.pattern)) :
    ∃ mab mba, Input.merge_one a b = .ok mab ∧ Input.merge_one b a = .ok mba
      ∧ mab.type = a.type ∧ mba.type = a.type
      ∧ mab.patternView = mba.patternView
      ∧ (truthyOptY a.pattern = true → mab.patternView = a.pattern)
      ∧ (truthyOptY a.pattern = false → truthyOptY b.pattern = true →
          mab.patternView = b.pattern) := by
  have hmab : Input.merge_one a b = .ok (
      let a1 := if truthyOptY b.pattern ∧ ¬ truthyOptY a.pattern then
        { a with pattern := b.pattern } else a
      if truthyOptY b.description ∧ ¬ truthyOptY a1.description then
        { a1 with description := b.description } else a1) := by
    unfold Input.merge_one
    rw [if_neg (fun hh => hh ht), if_neg (fun hh => hp ⟨hh.1, hh.2.1, hh.2.2⟩)]
    rfl
  have hmba : Input.merge_one b a = .ok (
      let b1 := if truthyOptY a.pattern ∧ ¬ truthyOptY b.pattern then
        { b with pattern := a.pattern } else b
      if truthyOptY a.description ∧ ¬ truthyOptY b1.description then
        { b1 with description := a.description } else b1) := by
    unfold Input.merge_one
    rw [if_neg (fun hh => hh ht.symm),
      if_neg (fun hh => hp ⟨hh.2.1, hh.1, fun he => hh.2.2 he.symm⟩)]
    rfl
  refine ⟨_, _, hmab, hmba, ?_, ?_, ?_, ?_, ?_⟩
  · dsimp only
    simp [apply_ite Input.type]
  · dsimp only
    simp [apply_ite Input.type, ht]
  · dsimp only
    by_cases hta : truthyOptY a.pattern = true <;> by_cases htb : truthyOptY b.pattern = true
    · have hab : a.pattern = b.pattern := by
        by_contra hne
        exact hp ⟨hta, htb, hne⟩
      simp [Input.patternView, apply_ite Input.pattern, hta, htb, hab]
    · simp [Input.patternView, apply_ite Input.pattern, hta, htb]
    · simp [Input.patternView, apply_ite Input.pattern, hta, htb]
    · simp only [Bool.not_eq_true] at hta htb
      simp [Input.patternView, apply_ite Input.pattern, hta, htb]
  · intro hta
    dsimp only
    simp [Input.patternView, apply_ite Input.pattern, hta]
  · intro hta htb
    dsimp only
    simp [Input.patternView, apply_ite Input.pattern, hta, htb]

/-- Witness for C7 at two concrete Inputs: same `String` type, a pattern on
the second only. -/
theorem C7_merge_order_independent_witness :
    ∃ mab mba,
      Input.merge_one (Input.init "n" (some (Y.s "String")) none (some (Y.s "d")) none)
          (Input.init "n" (some (Y.s "String")) (some (Y.s "^a$")) none none) = .ok mab
        ∧ Input.merge_one (Input.init "n" (some (Y.s "String")) (some (Y.s "^a$")) none none)
          (Input.init "n" (some (Y.s "String")) none (some (Y.s "d")) none) = .ok mba
        ∧ mab.type = (Input.init "n" (some (Y.s "String")) none (some (Y.s "d")) none).type
        ∧ mba.type = (Input.init "n" (some (Y.s "String")) none (some (Y.s "d")) none).type
        ∧ mab.patternView = mba.patternView
        ∧ (truthyOptY (Input.init "n" (some (Y.s "String")) none (some (Y.s "d")) none).pattern
            = true → mab.patternView
              = (Input.init "n" (some (Y.s "String")) none (some (Y.s "d")) none).pattern)
        ∧ (truthyOptY (Input.init "n" (some (Y.s "String")) none (some (Y.s "d")) none).pattern
            = false
          → truthyOptY (Input.init "n" (some (Y.s "String")) (some (Y.s "^a$")) none none).pattern
            = true
          → mab.patternView
            = (Input.init "n" (some (Y.s "String")) (some (Y.s "^a$")) none none).pattern) := by
  have h := C7_merge_order_independent
    (Input.init "n" (some (Y.s "String")) none (some (Y.s "d")) none)
    (Input.init "n" (some (Y.s "String")) (some (Y.s "^a$")) none none)
    (by decide) (by decide)
  exact h

theorem wordChar_ne_dollar {c : Char} (h : wordChar c = true) : c ≠ '$' := by
  intro hc
  subst hc
  simp [wordChar] at h

theorem mk_data (s : String) : String.mk s.data = s := by
  cases s
  rfl

theorem findRefsAux_append_noDollar (a t : List Char) (h : ∀ c ∈ a, c ≠ '$') :
    findRefsAux .plain (a ++ t) = findRefsAux .plain t := by
  induction a with
  | nil => rfl
  | cons c a' ih =>
    have hc : c ≠ '$' := h c (by simp)
    simp only [List.cons_append, findRefsAux, if_neg hc]
    exact ih (fun d hd => h d (by simp [hd]))

theorem findRefsAux_inName_word (w : List Char) (acc t : List Char)
    (h : ∀ c ∈ w, wordChar c = true) :
    findRefsAux (.inName acc) (w ++ t) = findRefsAux (.inName (acc ++ w)) t := by
  induction w generalizing acc with
  | nil => simp
  | cons c w' ih =>
    have hc : wordChar c = true := h c (by simp)
    rw [show findRefsAux (.inName acc) ((c :: w') ++ t)
        = findRefsAux (.inName (acc ++ [c])) (w' ++ t) from by
      simp [findRefsAux, hc]]
    rw [ih (acc ++ [c]) (fun d hd => h d (by simp [hd]))]
    simp

theorem findRefsAux_refPat (n : String) (t : List Char) (hne : n.data ≠ [])
    (hw : ∀ c ∈ n.data, wordChar c = true) :
    findRefsAux .plain (refPat n ++ t) = n :: findRefsAux .plain t := by
  have h2 : n.data.isEmpty = false := by
    cases hd : n.data.isEmpty
    · rfl
    · exact absurd (List.isEmpty_iff.mp hd) hne
  show findRefsAux .plain ('$' :: ('(' :: (n.data ++ [')'] ++ t))) = _
  rw [show findRefsAux .plain ('$' :: ('(' :: (n.data ++ [')'] ++ t)))
      = findRefsAux (.inName []) (n.data ++ (')' :: t)) from by
    simp [findRefsAux]]
  rw [findRefsAux_inName_word n.data [] (')' :: t) hw]
  have h1 : wordChar ')' = false := by decide
  rw [show findRefsAux (.inName ([] ++ n.data)) (')' :: t)
      = String.mk n.data :: findRefsAux .plain t from by
    simp [findRefsAux, h1, h2]]

theorem findRefs_segRender (segs : List Seg) (hok : ∀ g ∈ segs, Seg.ok g = true) :
    findRefs (segRender segs) = refNames segs := by
  induction segs with
  | nil => rfl
  | cons g rest ih =>
    have hg : Seg.ok g = true := hok g (by simp)
    have hrest : ∀ g ∈ rest, Seg.ok g = true := fun g hgm => hok g (by simp [hgm])
    cases g with
    | lit s =>
      have hs : ∀ c ∈ s, c ≠ '$' := by
        intro c hc
        have := (List.all_eq_true.mp hg) c hc
        simpa using this
      show findRefsAux .plain (s ++ segRender rest) = refNames (.lit s :: rest)
      rw [findRefsAux_append_noDollar s _ hs]
      exact ih hrest
    | ref n =>
      simp only [Seg.ok, Bool.and_eq_true, Bool.not_eq_true'] at hg
      have hne : n.data ≠ [] := by
        intro hh
        rw [List.isEmpty_iff.mpr hh] at hg
        simp at hg
      have hw : ∀ c ∈ n.data, wordChar c = true := List.all_eq_true.mp hg.2
      show findRefsAux .plain (refPat n ++ segRender rest) = n :: refNames rest
      rw [findRefsAux_refPat n _ hne hw]
      exact congrArg (List.cons n) (ih hrest)

theorem isPrefixOf_self_append (l t : List Char) : l.isPrefixOf (l ++ t) = true := by
  induction l with
  | nil => simp [List.isPrefixOf]
  | cons c rest ih => simp [List.isPrefixOf, ih]

theorem subRefAux_skip (n : String) (v : List Char) (l t : List Char) :
    subRefAux n v l.length (l ++ t) = subRefAux n v 0 t := by
  induction l with
  | nil => rfl
  | cons c rest ih =>
    show subRefAux n v (rest.length + 1) (c :: (rest ++ t)) = _
    rw [show subRefAux n v (rest.length + 1) (c :: (rest ++ t))
        = subRefAux n v rest.length (rest ++ t) from rfl]
    exact ih

theorem word_prefix_distinct (n m a b : List Char)
    (hn : ∀ c ∈ n, wordChar c = true) (hm : ∀ c ∈ m, wordChar c = true)
    (hne : n ≠ m) :
    (n ++ ')' :: a).isPrefixOf (m ++ ')' :: b) = false := by
  induction n generalizing m with
  | nil =>
    cases m with
    | nil => exact absurd rfl hne
    | cons d m' =>
      have hd : wordChar d = true := hm d (by simp)
      have : d ≠ ')' := by
        intro hh
        subst hh
        simp [wordChar] at hd
      simp [List.isPrefixOf, Ne.symm this]
  | cons c n' ih =>
    cases m with
    | nil =>
      have hc : wordChar c = true := hn c (by simp)
      have : c ≠ ')' := by
        intro hh
        subst hh
        simp [wordChar] at hc
      simp [List.isPrefixOf, this]
    | cons d m' =>
      by_cases hcd : c = d
      · subst hcd
        have hrec := ih m' (fun e he => hn e (by simp [he]))
          (fun e he => hm e (by simp [he]))
          (fun hh => hne (by rw [hh]))
        simp [List.isPrefixOf, hrec]
      · simp [List.isPrefixOf, hcd]

theorem subRefAux_append_noDollar (n : String) (v a t : List Char)
    (h : ∀ c ∈ a, c ≠ '$') :
    subRefAux n v 0 (a ++ t) = a ++ subRefAux n v 0 t := by
  induction a with
  | nil => rfl
  | cons c rest ih =>
    have hc : c ≠ '$' := h c (by simp)
    have hpre : (refPat n).isPrefixOf (c :: (rest ++ t)) = false := by
      simp [refPat, List.isPrefixOf, Ne.symm hc]
    show subRefAux n v 0 (c :: (rest ++ t)) = _
    rw [show subRefAux n v 0 (c :: (rest ++ t))
        = if (refPat n).isPrefixOf (c :: (rest ++ t)) then
            v ++ subRefAux n v ((refPat n).length - 1) (rest ++ t)
          else c :: subRefAux n v 0 (rest ++ t) from rfl]
    rw [hpre]
    simp only [Bool.false_eq_true, if_false]
    rw [ih (fun d hd => h d (by simp [hd]))]
    simp

theorem subRefAux_refPat_self (n : String) (v t : List Char) :
    subRefAux n v 0 (refPat n ++ t) = v ++ subRefAux n v 0 t := by
  have hpre : (refPat n).isPrefixOf (refPat n ++ t) = true := isPrefixOf_self_append _ _
  show subRefAux n v 0 ('$' :: (('(' :: n.data ++ [')']) ++ t)) = _
  rw [show subRefAux n v 0 ('$' :: (('(' :: n.data ++ [')']) ++ t))
      = if (refPat n).isPrefixOf ('$' :: (('(' :: n.data ++ [')']) ++ t)) then
          v ++ subRefAux n v ((refPat n).length - 1) (('(' :: n.data ++ [')']) ++ t)
        else '$' :: subRefAux n v 0 (('(' :: n.data ++ [')']) ++ t) from rfl]
  rw [show ('$' :: (('(' :: n.data ++ [')']) ++ t)) = refPat n ++ t from by
    simp [refPat]]
  rw [hpre]
  simp only [if_true]
  rw [show (refPat n).length - 1 = ('(' :: n.data ++ [')']).length from by
    simp [refPat]]
  rw [subRefAux_skip]

theorem subRefAux_refPat_other (n m : String) (v t : List Char)
    (hnw : ∀ c ∈ n.data, wordChar c = true) (hmw : ∀ c ∈ m.data, wordChar c = true)
    (hne : m ≠ n) :
    subRefAux n v 0 (refPat m ++ t) = refPat m ++ subRefAux n v 0 t := by
  have hdist : (n.data ++ ')' :: ([] : List Char)).isPrefixOf (m.data ++ ')' :: t)
      = false := by
    refine word_prefix_distinct n.data m.data [] t hnw hmw ?_
    intro hh
    exact hne (by cases n; cases m; simp_all)
  have hpre : (refPat n).isPrefixOf (refPat m ++ t) = false := by
    show (('$' :: '(' :: (n.data ++ [')'])).isPrefixOf
      (('$' :: '(' :: (m.data ++ [')'])) ++ t)) = false
    simp only [List.isPrefixOf, List.cons_append, beq_self_eq_true, Bool.true_and]
    rw [show ((m.data ++ [')']).append t : List Char) = m.data ++ ')' :: t from by simp]
    rw [show (n.data ++ [')'] : List Char) = n.data ++ ')' :: [] from rfl]
    simp [hdist]
  show subRefAux n v 0 ('$' :: (('(' :: m.data ++ [')']) ++ t)) = _
  rw [show subRefAux n v 0 ('$' :: (('(' :: m.data ++ [')']) ++ t))
      = if (refPat n).isPrefixOf ('$' :: (('(' :: m.data ++ [')']) ++ t)) then
          v ++ subRefAux n v ((refPat n).length - 1) (('(' :: m.data ++ [')']) ++ t)
        else '$' :: subRefAux n v 0 (('(' :: m.data ++ [')']) ++ t) from rfl]
  rw [show ('$' :: (('(' :: m.data ++ [')']) ++ t)) = refPat m ++ t from by
    simp [refPat]]
  rw [hpre]
  simp only [Bool.false_eq_true, if_false]
  rw [show (('(' :: m.data ++ [')']) ++ t) = ('(' :: m.data ++ [')']) ++ t from rfl]
  rw [subRefAux_append_noDollar n v ('(' :: m.data ++ [')']) t (by
    intro c hc
    simp only [List.cons_append, List.mem_cons, List.mem_append,
      List.mem_singleton] at hc
    rcases hc with h | h | h | h
    · subst h; decide
    · exact wordChar_ne_dollar (hmw c h)
    · subst h; decide
    · simp at h)]
  simp [refPat]

theorem subRef_segRender (n : String) (v : List Char) (segs : List Seg)
    (hok : ∀ g ∈ segs, Seg.ok g = true) (hv : ∀ c ∈ v, c ≠ '$')
    (hnw : ∀ c ∈ n.data, wordChar c = true) :
    subRef n v (segRender segs) = segRender (substSeg n v segs) := by
  induction segs with
  | nil => rfl
  | cons g rest ih =>
    have hrest : ∀ g ∈ rest, Seg.ok g = true := fun g hg => hok g (by simp [hg])
    cases g with
    | lit s =>
      have hs : ∀ c ∈ s, c ≠ '$' := by
        intro c hc
        have := (List.all_eq_true.mp (hok (.lit s) (by simp))) c hc
        simpa using this
      show subRefAux n v 0 (s ++ segRender rest) = _
      rw [subRefAux_append_noDollar n v s _ hs]
      show s ++ subRef n v (segRender rest) = segRender (.lit s :: substSeg n v rest)
      rw [ih hrest]
      rfl
    | ref m =>
      have hg := hok (.ref m) (by simp)
      simp only [Seg.ok, Bool.and_eq_true] at hg
      have hmw : ∀ c ∈ m.data, wordChar c = true := List.all_eq_true.mp hg.2
      by_cases hmn : m = n
      · subst hmn
        show subRefAux m v 0 (refPat m ++ segRender rest) = _
        rw [subRefAux_refPat_self]
        show v ++ subRef m v (segRender rest) = segRender (substSeg m v (.ref m :: rest))
        rw [ih hrest]
        simp [substSeg, segRender]
      · show subRefAux n v 0 (refPat m ++ segRender rest) = _
        rw [subRefAux_refPat_other n m v _ hnw hmw hmn]
        show refPat m ++ subRef n v (segRender rest)
          = segRender (substSeg n v (.ref m :: rest))
        rw [ih hrest]
        simp [substSeg, segRender, hmn]

theorem processReplAux_noBackslash (m : String) (l : List Char)
    (h : ∀ c ∈ l, c ≠ '\\') :
    processReplAux m .normal l = .ok l := by
  induction l with
  | nil => rfl
  | cons c rest ih =>
    have hc : c ≠ '\\' := h c (by simp)
    show processReplAux m .normal (c :: rest) = _
    rw [show processReplAux m .normal (c :: rest)
        = if c = '\\' then processReplAux m .esc rest
          else (c :: ·) <$> processReplAux m .normal rest from rfl]
    rw [if_neg hc, ih (fun d hd => h d (by simp [hd]))]
    rfl

theorem specSubstituteAux_append_noDollar (f : String → Option (List Char))
    (a t : List Char) (h : ∀ c ∈ a, c ≠ '$') :
    specSubstituteAux f .plain (a ++ t) = a ++ specSubstituteAux f .plain t := by
  induction a with
  | nil => rfl
  | cons c rest ih =>
    have hc : c ≠ '$' := h c (by simp)
    show specSubstituteAux f .plain (c :: (rest ++ t)) = _
    rw [show specSubstituteAux f .plain (c :: (rest ++ t))
        = if c = '$' then specSubstituteAux f .sawDollar (rest ++ t)
          else c :: specSubstituteAux f .plain (rest ++ t) from rfl]
    rw [if_neg hc, ih (fun d hd => h d (by simp [hd]))]
    simp

theorem specSubstituteAux_inName_word (f : String → Option (List Char))
    (w acc t : List Char) (h : ∀ c ∈ w, wordChar c = true) :
    specSubstituteAux f (.inName acc) (w ++ t)
      = specSubstituteAux f (.inName (acc ++ w)) t := by
  induction w generalizing acc with
  | nil => simp
  | cons c w' ih =>
    have hc : wordChar c = true := h c (by simp)
    rw [show specSubstituteAux f (.inName acc) ((c :: w') ++ t)
        = specSubstituteAux f (.inName (acc ++ [c])) (w' ++ t) from by
      simp [specSubstituteAux, hc]]
    rw [ih (acc ++ [c]) (fun d hd => h d (by simp [hd]))]
    simp

theorem specSubstituteAux_refPat (f : String → Option (List Char)) (n : String)
    (t : List Char) (hne : n.data ≠ []) (hw : ∀ c ∈ n.data, wordChar c = true) :
    specSubstituteAux f .plain (refPat n ++ t)
      = (match f n with
         | some v => v
         | none => refPat n) ++ specSubstituteAux f .plain t := by
  have h2 : n.data.isEmpty = false := by
    cases hd : n.data.isEmpty
    · rfl
    · exact absurd (List.isEmpty_iff.mp hd) hne
  show specSubstituteAux f .plain ('$' :: ('(' :: (n.data ++ [')'] ++ t))) = _
  rw [show specSubstituteAux f .plain ('$' :: ('(' :: (n.data ++ [')'] ++ t)))
      = specSubstituteAux f (.inName []) (n.data ++ (')' :: t)) from by
    simp [specSubstituteAux]]
  rw [specSubstituteAux_inName_word f n.data [] (')' :: t) hw]
  have h1 : wordChar ')' = false := by decide
  rw [show specSubstituteAux f (.inName ([] ++ n.data)) (')' :: t)
      = (match f (String.mk n.data) with
         | some v => v
         | none => '$' :: '(' :: n.data ++ [')']) ++ specSubstituteAux f .plain t from by
    simp [specSubstituteAux, h1, h2]]
  rw [mk_data]
  rfl

theorem specSubstitute_segRender (f : String → Option (List Char)) (segs : List Seg)
    (hok : ∀ g ∈ segs, Seg.ok g = true) :
    specSubstitute f (segRender segs) = segRender (segResolve f segs) := by
  induction segs with
  | nil => rfl
  | cons g rest ih =>
    have hrest : ∀ g ∈ rest, Seg.ok g = true := fun g hg => hok g (by simp [hg])
    cases g with
    | lit s =>
      have hs : ∀ c ∈ s, c ≠ '$' := by
        intro c hc
        have := (List.all_eq_true.mp (hok (.lit s) (by simp))) c hc
        simpa using this
      show specSubstituteAux f .plain (s ++ segRender rest) = _
      rw [specSubstituteAux_append_noDollar f s _ hs]
      show s ++ specSubstitute f (segRender rest) = segRender (.lit s :: segResolve f rest)
      rw [ih hrest]
      rfl
    | ref n =>
      have hg := hok (.ref n) (by simp)
      simp only [Seg.ok, Bool.and_eq_true] at hg
      have hne : n.data ≠ [] := by
        intro hh
        rw [List.isEmpty_iff.mpr hh] at hg
        simp at hg
      have hw : ∀ c ∈ n.data, wordChar c = true := List.all_eq_true.mp hg.2
      show specSubstituteAux f .plain (refPat n ++ segRender rest) = _
      rw [specSubstituteAux_refPat f n _ hne hw]
      show _ ++ specSubstitute f (segRender rest) = segRender (segResolve f (.ref n :: rest))
      rw [ih hrest]
      cases hf : f n with
      | some v => simp [segResolve, segRender, hf]
      | none => simp [segResolve, segRender, hf]

theorem substSeg_ok (n : String) (v : List Char) (segs : List Seg)
    (hok : ∀ g ∈ segs, Seg.ok g = true) (hv : ∀ c ∈ v, c ≠ '$') :
    ∀ g ∈ substSeg n v segs, Seg.ok g = true := by
  intro g hg
  simp only [substSeg, List.mem_map] at hg
  obtain ⟨g0, hg0, hmap⟩ := hg
  cases g0 with
  | lit s => rw [← hmap]; exact hok _ hg0
  | ref m =>
    by_cases hmn : m = n
    · rw [← hmap]
      simp only [hmn, if_pos rfl, Seg.ok]
      exact List.all_eq_true.mpr (fun c hc => by simpa using hv c hc)
    · rw [← hmap]
      simp only [if_neg hmn]
      exact hok _ hg0

theorem refNames_substSeg (n : String) (v : List Char) (segs : List Seg) :
    ∀ m ∈ refNames (substSeg n v segs), m ∈ refNames segs ∧ m ≠ n := by
  induction segs with
  | nil => intro m hm; simp [substSeg, refNames] at hm
  | cons g rest ih =>
    intro m hm
    cases g with
    | lit s =>
      rw [show substSeg n v (.lit s :: rest) = .lit s :: substSeg n v rest from rfl,
        show refNames (.lit s :: substSeg n v rest)
          = refNames (substSeg n v rest) from rfl] at hm
      rw [show refNames (.lit s :: rest) = refNames rest from rfl]
      exact ih m hm
    | ref m0 =>
      by_cases hm0 : m0 = n
      · rw [show substSeg n v (.ref m0 :: rest) = .lit v :: substSeg n v rest from by
          simp [substSeg, hm0],
        show refNames (.lit v :: substSeg n v rest)
          = refNames (substSeg n v rest) from rfl] at hm
        have h2 := ih m hm
        exact ⟨by simp [refNames, h2.1], h2.2⟩
      · rw [show substSeg n v (.ref m0 :: rest) = .ref m0 :: substSeg n v rest from by
          simp [substSeg, hm0],
        show refNames (.ref m0 :: substSeg n v rest)
          = m0 :: refNames (substSeg n v rest) from rfl] at hm
        simp only [List.mem_cons] at hm
        rcases hm with hm | hm
        · subst hm
          exact ⟨by simp [refNames], hm0⟩
        · have h2 := ih m hm
          exact ⟨by simp [refNames, h2.1], h2.2⟩

theorem segResolve_substSeg (f : String → Option (List Char)) (n : String)
    (v : List Char) (segs : List Seg) (hf : f n = some v) :
    segResolve f (substSeg n v segs) = segResolve f segs := by
  induction segs with
  | nil => rfl
  | cons g rest ih =>
    cases g with
    | lit s =>
      show Seg.lit s :: segResolve f (substSeg n v rest) = Seg.lit s :: segResolve f rest
      rw [ih]
    | ref m =>
      by_cases hmn : m = n
      · subst hmn
        rw [show substSeg m v (Seg.ref m :: rest) = Seg.lit v :: substSeg m v rest from by
            simp [substSeg],
          show segResolve f (Seg.lit v :: substSeg m v rest)
            = Seg.lit v :: segResolve f (substSeg m v rest) from rfl,
          show segResolve f (Seg.ref m :: rest)
            = Seg.lit v :: segResolve f rest from by simp [segResolve, hf]]
        rw [ih]
      · rw [show substSeg n v (Seg.ref m :: rest) = Seg.ref m :: substSeg n v rest from by
            simp [substSeg, hmn],
          show segResolve f (Seg.ref m :: substSeg n v rest)
            = (match f m with
               | some w => Seg.lit w
               | none => Seg.ref m) :: segResolve f (substSeg n v rest) from rfl,
          show segResolve f (Seg.ref m :: rest)
            = (match f m with
               | some w => Seg.lit w
               | none => Seg.ref m) :: segResolve f rest from rfl]
        rw [ih]

theorem segResolve_noRefs (f : String → Option (List Char)) (segs : List Seg)
    (h : refNames segs = []) : segResolve f segs = segs := by
  induction segs with
  | nil => rfl
  | cons g rest ih =>
    cases g with
    | lit s =>
      simp only [refNames] at h
      exact congrArg (List.cons (Seg.lit s)) (ih h)
    | ref m => simp [refNames] at h

theorem substLoop_cons (env : Env) (n : String) (rest : List String) (cur : String)
    (i : Input) (s : String) (hvar : env.vars n = some (.input i))
    (hval : i.value = some (.s s)) (hs2 : ∀ c ∈ s.data, c ≠ '\\') :
    substLoop env none (n :: rest) cur
      = substLoop env none rest (String.mk (subRef n s.data cur.data)) := by
  simp only [substLoop, hvar]
  rw [show Binding.get_value env (.input i) none = pure i.value from rfl]
  rw [hval]
  rw [show (pure (some (Y.s s)) : Except String (Option Y)) = .ok (some (Y.s s)) from rfl]
  simp only [bindOk, exceptBindOk]
  rw [show processRepl ("$(" ++ n ++ ")") s.data = .ok s.data from
    processReplAux_noBackslash _ s.data hs2]
  simp only [bindOk, exceptBindOk]

theorem substLoop_segs (env : Env) :
    ∀ (ns : List String) (segs : List Seg),
      (∀ g ∈ segs, Seg.ok g = true) →
      (∀ m ∈ refNames segs, m ∈ ns) →
      (∀ n ∈ ns, (∀ c ∈ n.data, wordChar c = true) ∧
        ∃ i s, env.vars n = some (.input i) ∧ i.value = some (.s s) ∧
          (∀ c ∈ s.data, c ≠ '$') ∧ (∀ c ∈ s.data, c ≠ '\\')) →
      substLoop env none ns (String.mk (segRender segs))
        = .ok (String.mk (segRender (segResolve (resolvedPlain env) segs))) := by
  intro ns
  induction ns with
  | nil =>
    intro segs hok hsub _
    have hrn : refNames segs = [] := by
      cases hrn : refNames segs with
      | nil => rfl
      | cons m ms =>
        have := hsub m (by rw [hrn]; simp)
        simp at this
    rw [segResolve_noRefs _ _ hrn]
    rfl
  | cons n rest ih =>
    intro segs hok hsub hb
    obtain ⟨hword, i, s, hvar, hval, hs1, hs2⟩ := hb n (by simp)
    rw [substLoop_cons env n rest _ i s hvar hval hs2]
    rw [show (String.mk (segRender segs)).data = segRender segs from rfl]
    rw [subRef_segRender n s.data segs hok hs1 hword]
    rw [ih (substSeg n s.data segs)
      (substSeg_ok n s.data segs hok hs1)
      (fun m hm => by
        have := refNames_substSeg n s.data segs m hm
        have hmem := hsub m this.1
        simp only [List.mem_cons] at hmem
        rcases hmem with hmem | hmem
        · exact absurd hmem this.2
        · exact hmem)
      (fun m hm => hb m (by simp [hm]))]
    have hres : resolvedPlain env n = some s.data := by
      simp [resolvedPlain, hvar, hval]
    rw [segResolve_substSeg (resolvedPlain env) n s.data segs hres]

theorem refNames_mem (segs : List Seg) : ∀ n ∈ refNames segs, Seg.ref n ∈ segs := by
  induction segs with
  | nil => intro n hn; simp [refNames] at hn
  | cons g rest ih =>
    intro n hn
    cases g with
    | lit s =>
      rw [show refNames (.lit s :: rest) = refNames rest from rfl] at hn
      exact List.mem_cons_of_mem _ (ih n hn)
    | ref m =>
      rw [show refNames (.ref m :: rest) = m :: refNames rest from rfl] at hn
      simp only [List.mem_cons] at hn
      rcases hn with hn | hn
      · subst hn; simp
      · exact List.mem_cons_of_mem _ (ih n hn)

theorem computeE_segs (env : Env) (segs : List Seg)
    (hok : ∀ g ∈ segs, Seg.ok g = true)
    (hb : ∀ n ∈ refNames segs,
      ∃ i s, env.vars n = some (.input i) ∧ i.value = some (.s s) ∧
        (∀ c ∈ s.data, c ≠ '$') ∧ (∀ c ∈ s.data, c ≠ '\\')) :
    VarString.computeE env (String.mk (segRender segs)) none
      = .ok (String.mk (specSubstitute (resolvedPlain env) (segRender segs))) := by
  have hout : String.mk (specSubstitute (resolvedPlain env) (segRender segs))
      = String.mk (segRender (segResolve (resolvedPlain env) segs)) :=
    congrArg String.mk (specSubstitute_segRender _ _ hok)
  show (match findRefs (String.mk (segRender segs)).data with
    | [] => pure (String.mk (segRender segs))
    | ns => do
      let kid ← KVal.dumpOptE env none
      substLoop env kid ns (String.mk (segRender segs))) = _
  rw [show (String.mk (segRender segs)).data = segRender segs from rfl]
  rw [findRefs_segRender segs hok]
  cases hrn : refNames segs with
  | nil =>
    rw [hout, segResolve_noRefs _ _ hrn]
    rfl
  | cons n ms =>
    show (do
      let kid ← KVal.dumpOptE env none
      substLoop env kid (n :: ms) (String.mk (segRender segs))) = _
    rw [show KVal.dumpOptE env none = (.ok none : Except String (Option Y)) from rfl]
    simp only [bindOk, exceptBindOk]
    rw [substLoop_segs env (n :: ms) segs hok
      (by rw [hrn]; exact fun m hm => hm)
      (by
        intro m hm
        rw [← hrn] at hm
        have hword : ∀ c ∈ m.data, wordChar c = true := by
          have hseg := refNames_mem segs m hm
          have := hok _ hseg
          simp only [Seg.ok, Bool.and_eq_true] at this
          exact List.all_eq_true.mp this.2
        exact ⟨hword, hb m hm⟩)]
    rw [hout]

/-- C3 counterexample: the `value` substitution is not verbatim literal
replacement of each `$(name)` occurrence. With `A` resolved to the text
`$(B)` and `B` resolved to `x`, the template `$(A) $(B)` reads as `x x` —
the text inserted for `A` is rescanned when `B` is substituted — whereas
replacing each occurrence by the literal resolved value gives `$(B) x`. -/
theorem C3_counterexample_substitution_not_verbatim :
    (VarString.readValue envC3 (VarString.init "$(A) $(B)" none)).map Prod.fst
      = .ok "x x"
    ∧ String.mk (specSubstitute (resolvedPlain envC3) "$(A) $(B)".data) = "$(B) x"
    ∧ ("x x" : String) ≠ "$(B) x" := by
  refine ⟨by decide, by decide, by decide⟩

/-- C3 (amended): reading `.value` substitutes the referenced Inputs'
resolved values sequentially, one referenced name at a time, each step
replacing all occurrences via regex substitution, so inserted text is itself
subject to later names' substitutions and backslash escape processing. When
the template splits into `$`-free literal chunks and `$(name)` references and
every referenced Input holds a resolved plaintext value free of `$` and `\`,
this coincides with replacing each `$(name)` occurrence by the literal
resolved value; the result is stored in the `_value` cache and subsequent
reads return the same string. -/
theorem C3_literal_substitution_under_plain_values (env : Env) (segs : List Seg)
    (hok : ∀ g ∈ segs, Seg.ok g = true)
    (hb : ∀ n ∈ refNames segs,
      ∃ i s, env.vars n = some (.input i) ∧ i.value = some (.s s) ∧
        (∀ c ∈ s.data, c ≠ '$') ∧ (∀ c ∈ s.data, c ≠ '\\')) :
    VarString.readValue env (VarString.init (String.mk (segRender segs)) none)
      = .ok (String.mk (specSubstitute (resolvedPlain env) (segRender segs)),
          ⟨String.mk (segRender segs), none,
           some (String.mk (specSubstitute (resolvedPlain env) (segRender segs)))⟩)
    ∧ VarString.readValue env
        ⟨String.mk (segRender segs), none,
         some (String.mk (specSubstitute (resolvedPlain env) (segRender segs)))⟩
      = .ok (String.mk (specSubstitute (resolvedPlain env) (segRender segs)),
          ⟨String.mk (segRender segs), none,
           some (String.mk (specSubstitute (resolvedPlain env) (segRender segs)))⟩) := by
  have hcomp := computeE_segs env segs hok hb
  have hout : String.mk (specSubstitute (resolvedPlain env) (segRender segs))
      = String.mk (segRender (segResolve (resolvedPlain env) segs)) :=
    congrArg String.mk (specSubstitute_segRender _ _ hok)
  constructor
  · show VarString.readValue env
      ⟨String.mk (segRender segs), none,
        if (findRefs (String.mk (segRender segs)).data).isEmpty then
          some (String.mk (segRender segs))
        else none⟩ = _
    rw [show (String.mk (segRender segs)).data = segRender segs from rfl]
    rw [findRefs_segRender segs hok]
    cases hrn : refNames segs with
    | nil =>
      have htmpl : String.mk (specSubstitute (resolvedPlain env) (segRender segs))
          = String.mk (segRender segs) := by
        rw [hout, segResolve_noRefs _ _ hrn]
      simp only [List.isEmpty_nil, if_pos]
      simp only [VarString.readValue]
      cases hemp : (String.mk (segRender segs)).isEmpty
      · simp only [Bool.false_eq_true, if_false]
        rw [htmpl]
        rfl
      · simp only [if_pos]
        rw [hcomp]
        rw [show (Except.ok (String.mk (specSubstitute (resolvedPlain env)
            (segRender segs))) : Except String String) >>= (fun val =>
            pure (val, (⟨String.mk (segRender segs), none, some val⟩ : VarString)))
          = pure (String.mk (specSubstitute (resolvedPlain env) (segRender segs)),
              ⟨String.mk (segRender segs), none,
               some (String.mk (specSubstitute (resolvedPlain env) (segRender segs)))⟩)
          from rfl]
        rfl
    | cons n ms =>
      simp only [List.isEmpty_cons, Bool.false_eq_true, if_false]
      simp only [VarString.readValue]
      rw [hcomp]
      rfl
  · simp only [VarString.readValue]
    cases hemp : (String.mk (specSubstitute (resolvedPlain env) (segRender segs))).isEmpty
    · simp only [Bool.false_eq_true, if_false]
      rfl
    · simp only [if_pos]
      rw [hcomp]
      rfl

/-- Witness for C3 (amended) at the template `$(A) $(B)` with `A` resolved to
`1` and `B` to `2`. -/
theorem C3_literal_substitution_under_plain_values_witness :
    VarString.readValue envW3 (VarString.init (String.mk (segRender segsW3)) none)
      = .ok (String.mk (specSubstitute (resolvedPlain envW3) (segRender segsW3)),
          ⟨String.mk (segRender segsW3), none,
           some (String.mk (specSubstitute (resolvedPlain envW3) (segRender segsW3)))⟩)
    ∧ String.mk (segRender segsW3) = "$(A) $(B)"
    ∧ String.mk (specSubstitute (resolvedPlain envW3) (segRender segsW3)) = "1 2" := by
  refine ⟨(C3_literal_substitution_under_plain_values envW3 segsW3 (by decide) ?_).1,
    by decide, by decide⟩
  intro n hn
  rw [show refNames segsW3 = ["A", "B"] from rfl] at hn
  simp only [List.mem_cons, List.not_mem_nil, or_false] at hn
  rcases hn with hn | hn
  · subst hn
    exact ⟨strInput "A" "1", "1", rfl, rfl, by decide, by decide⟩
  · subst hn
    exact ⟨strInput "B" "2", "2", rfl, rfl, by decide, by decide⟩

theorem pureBindOk {ε α β : Type} (a : α) (f : α → Except ε β) :
    (pure a : Except ε α) >>= f = f a := rfl

theorem nilOfIsEmpty {α : Type} {l : List α} (h : l.isEmpty = true) : l = [] := by
  cases l with
  | nil => rfl
  | cons a t => exact Bool.noConfusion h

theorem eq_false_of_not {b : Bool} (h : (!b) = true) : b = false := by
  cases b
  · rfl
  · exact Bool.noConfusion h

theorem all_mem {α : Type} {p : α → Bool} {l : List α} (h : l.all p = true) :
    ∀ x ∈ l, p x = true := by
  induction l with
  | nil => intro x hx; exact absurd hx (List.not_mem_nil x)
  | cons a t ih =>
    intro x hx
    rw [List.all_cons, Bool.and_eq_true] at h
    rcases List.mem_cons.mp hx with hx | hx
    · rw [hx]; exact h.1
    · exact ih h.2 x hx

theorem alookup_nodot {α : Type} (l : List (String × α)) (k : String)
    (hk : startsWithDot k = true) (h : ∀ p ∈ l, startsWithDot p.1 = false) :
    alookup l k = none := by
  induction l with
  | nil => rfl
  | cons p rest ih =>
    obtain ⟨pk, pv⟩ := p
    simp only [alookup]
    rw [if_neg, ih (fun q hq => h q (List.mem_cons_of_mem _ hq))]
    intro he
    have hp := h (pk, pv) (List.mem_cons_self _ _)
    rw [he, hk] at hp
    exact Bool.noConfusion hp

theorem alookup_append {α : Type} (a b : List (String × α)) (k : String) :
    alookup (a ++ b) k = (match alookup a k with
      | some v => some v
      | none => alookup b k) := by
  induction a with
  | nil => rfl
  | cons p rest ih =>
    obtain ⟨pk, pv⟩ := p
    simp only [List.cons_append, alookup]
    by_cases h : pk = k
    · rw [if_pos h, if_pos h]
    · rw [if_neg h, if_neg h]
      exact ih

theorem not_mem_of_alookup_none {α : Type} {l : List (String × α)} {k : String}
    (h : alookup l k = none) : k ∉ l.map Prod.fst := by
  induction l with
  | nil => simp
  | cons p rest ih =>
    obtain ⟨pk, pv⟩ := p
    simp only [alookup] at h
    by_cases hpk : pk = k
    · rw [if_pos hpk] at h
      exact Option.noConfusion h
    · rw [if_neg hpk] at h
      simp only [List.map_cons, List.mem_cons]
      push_neg
      exact ⟨fun hh => hpk hh.symm, ih h⟩

theorem init_noRefs (s : String) (k : Option KVal) (h : findRefs s.data = []) :
    VarString.init s k = ⟨s, k, some s⟩ := by
  unfold VarString.init
  rw [h]
  rfl

theorem valueE_init_noRefs (env : Env) (k : Option KVal) (s : String)
    (h : findRefs s.data = []) :
    VarString.valueE env (VarString.init s k) = .ok s := by
  have hc : VarString.computeE env s k = .ok s := by
    unfold VarString.computeE
    rw [h]
    rfl
  rw [init_noRefs s k h]
  show (if s.isEmpty then VarString.computeE env s k else pure s) = .ok s
  cases hs : s.isEmpty
  · rfl
  · exact hc

theorem dumpE_init_noRefs (env : Env) (s : String) (h : findRefs s.data = []) :
    FVal.dumpE env (.vs (VarString.init s none)) = .ok (.y (.s s)) := by
  show (fun t => FVal.y (Y.s t)) <$> VarString.valueE env (VarString.init s none) = _
  rw [valueE_init_noRefs env none s h]
  rfl

theorem mapM_dump_strings (env : Env) (vs : List String)
    (h : ∀ s ∈ vs, findRefs s.data = []) :
    ((vs.map Y.s).map (fun y => VarString.loadY y none)).mapM
      (fun x => do
        let dx ← FVal.dumpE env x
        match dx with
        | FVal.y (Y.s s) => pure s
        | _ => throw "TypeError: sequence item is not a string")
      = Except.ok vs := by
  induction vs with
  | nil => rfl
  | cons v rest ih =>
    have hv : findRefs v.data = [] := h v (List.mem_cons_self _ _)
    simp only [List.map_cons, List.mapM_cons]
    rw [show FVal.dumpE env (VarString.loadY (Y.s v) none) = Except.ok (FVal.y (Y.s v)) from
      dumpE_init_noRefs env v hv]
    simp only [bindOk, pureBindOk]
    rw [ih (fun s hs => h s (List.mem_cons_of_mem _ hs))]
    simp only [bindOk]
    rfl

theorem valueE_gval (env : Env) (p : SSMParameter) (gv : GVal)
    (hp : p.value = GVal.loadedValue gv) (hg : GVal.noRefs gv = true) :
    SSMParameter.valueE env p = .ok (some (.y (.s (GVal.joined gv)))) := by
  cases gv with
  | s v =>
    simp only [GVal.loadedValue] at hp
    simp only [SSMParameter.valueE, hp]
    rw [dumpE_init_noRefs env v (nilOfIsEmpty hg)]
    rfl
  | l vs =>
    simp only [GVal.loadedValue] at hp
    simp only [SSMParameter.valueE, hp]
    rw [show FVal.dumpE env (FVal.listv ((vs.map Y.s).map (fun y => VarString.loadY y none)))
        = Except.ok (FVal.listv ((vs.map Y.s).map (fun y => VarString.loadY y none))) from rfl]
    simp only [bindOk]
    rw [mapM_dump_strings env vs (fun s hs => nilOfIsEmpty (all_mem hg s hs))]
    simp only [bindOk]
    rfl

theorem apE_some (env : Env) (p : SSMParameter) (a : String)
    (hp : p.allowed_pattern = some (.vs (VarString.init a none)))
    (h : findRefs a.data = []) :
    SSMParameter.allowed_patternE env p = .ok (some (.y (.s a))) := by
  simp only [SSMParameter.allowed_patternE, hp, FVal.dumpOptE]
  rw [dumpE_init_noRefs env a h]
  rfl

theorem disableE_pOf (env : Env) (n : String) (e : GEntry) :
    SSMParameter.disableE env (pOf n e) = .ok false := by
  cases e <;> rfl

theorem load_rawEntry (n : String) (e : GEntry) :
    desugarEntry (GEntry.toEntryY e) = .ok (rawEntry e)
      ∧ SSMParameter.load (dictUpdate (dictUpdate [("Name", Y.s n)] []) (rawEntry e)) false
          = .ok (pOf n e) := by
  cases e with
  | strSugar v => exact ⟨rfl, rfl⟩
  | listSugar vs => exact ⟨rfl, rfl⟩
  | full gv ap desc =>
    refine ⟨rfl, ?_⟩
    cases gv <;> cases ap <;> cases desc <;> rfl

theorem filter_name_frag (e : GEntry) (x : Option FVal) :
    (("Name", x) :: expectedFrag e).filter (fun kv => kv.1 ≠ "Name") = expectedFrag e := by
  cases e with
  | strSugar v => rfl
  | listSugar vs => rfl
  | full gv ap desc => cases ap <;> cases desc <;> rfl

theorem dump_pOf (env : Env) (n : String) (e : GEntry)
    (hn : findRefs n.data = []) (he : GEntry.wf e = true) :
    SSMParameter.dump env (pOf n e)
      = .ok (("Name", some (.y (.s n))) :: expectedFrag e) := by
  cases e with
  | strSugar v =>
    have hval := valueE_gval env (pOf n (.strSugar v)) (.s v) rfl he
    unfold SSMParameter.dump
    rw [show SSMParameter.nameE env (pOf n (.strSugar v)) = Except.ok (FVal.y (Y.s n)) from
      dumpE_init_noRefs env n hn]
    simp only [bindOk]
    rw [hval]
    simp only [bindOk]
    rfl
  | listSugar vs =>
    have hval := valueE_gval env (pOf n (.listSugar vs)) (.l vs) rfl he
    unfold SSMParameter.dump
    rw [show SSMParameter.nameE env (pOf n (.listSugar vs)) = Except.ok (FVal.y (Y.s n)) from
      dumpE_init_noRefs env n hn]
    simp only [bindOk]
    rw [hval]
    simp only [bindOk]
    rfl
  | full gv ap desc =>
    simp only [GEntry.wf] at he
    rw [Bool.and_eq_true, Bool.and_eq_true] at he
    obtain ⟨⟨hg, hap⟩, hdesc⟩ := he
    have hval := valueE_gval env (pOf n (.full gv ap desc)) gv rfl hg
    unfold SSMParameter.dump
    rw [show SSMParameter.nameE env (pOf n (.full gv ap desc)) = Except.ok (FVal.y (Y.s n)) from
      dumpE_init_noRefs env n hn]
    simp only [bindOk]
    rw [hval]
    simp only [bindOk]
    cases ap with
    | none =>
      rw [show SSMParameter.allowed_patternE env (pOf n (.full gv none desc))
          = Except.ok none from rfl]
      simp only [bindOk]
      cases desc with
      | none => rfl
      | some d =>
        have hd : d.isEmpty = false := eq_false_of_not hdesc
        rw [show SSMParameter.key_idE env (pOf n (GEntry.full gv none (some d)))
            = Except.ok none from rfl]
        simp only [bindOk]
        simp only [pOf, truthyOptY, truthyOptFVal, FVal.truthy, Y.truthy, hd, Bool.not_false]
        rfl
    | some a =>
      have hap' : ((findRefs a.data).isEmpty && !a.isEmpty) = true := hap
      rw [Bool.and_eq_true] at hap'
      have ha : a.isEmpty = false := eq_false_of_not hap'.2
      rw [apE_some env (pOf n (.full gv (some a) desc)) a rfl (nilOfIsEmpty hap'.1)]
      simp only [bindOk]
      cases desc with
      | none =>
        simp only [truthyOptFVal, FVal.truthy, Y.truthy, ha, Bool.not_false]
        rfl
      | some d =>
        have hd : d.isEmpty = false := eq_false_of_not hdesc
        rw [show SSMParameter.key_idE env (pOf n (GEntry.full gv (some a) (some d)))
            = Except.ok none from rfl]
        simp only [bindOk]
        simp only [pOf, truthyOptY, truthyOptFVal, FVal.truthy, Y.truthy, ha, hd,
          Bool.not_false]
        rfl

theorem compileStep_pOf (env : Env) (acc : List (String × CVal)) (n : String) (e : GEntry)
    (hn : findRefs n.data = []) (he : GEntry.wf e = true) :
    compileStep env false acc (pOf n e) = .ok (dictSet acc n (.frag (expectedFrag e))) := by
  unfold compileStep
  rw [disableE_pOf env n e]
  simp only [bindOk]
  rw [dump_pOf env n e hn he]
  simp only [bindOk]
  rw [show alookup (("Name", some (FVal.y (Y.s n))) :: expectedFrag e) "Name"
      = some (some (FVal.y (Y.s n))) from rfl]
  rw [filter_name_frag e (some (FVal.y (Y.s n)))]
  rfl

theorem parseLoop_grammar :
    ∀ (doc : List (String × GEntry)),
      (∀ kv ∈ doc, startsWithDot kv.1 = false) →
      (doc.map Prod.fst).Nodup →
      ∀ acc : List (String × SSMParameter),
        (∀ kv ∈ doc, alookup acc kv.1 = none) →
        parseParamsLoop none false acc (doc.map (fun kv => (kv.1, GEntry.toEntryY kv.2)))
          = .ok (acc ++ doc.map (fun kv => (kv.1, pOf kv.1 kv.2))) := by
  intro doc
  induction doc with
  | nil =>
    intro _ _ acc _
    simp only [List.map_nil, List.append_nil]
    rfl
  | cons kv rest ih =>
    obtain ⟨n, e⟩ := kv
    intro hdot hnodup acc hacc
    have hd : startsWithDot n = false := hdot (n, e) (List.mem_cons_self _ _)
    simp only [List.map_cons]
    have hstep : parseParamsLoop none false acc
        ((n, GEntry.toEntryY e) :: rest.map (fun kv => (kv.1, GEntry.toEntryY kv.2)))
        = (desugarEntry (GEntry.toEntryY e) >>= fun d =>
            SSMParameter.load (dictUpdate (dictUpdate [("Name", Y.s n)] []) d) false
              >>= fun p =>
            parseParamsLoop none false (dictSet acc n p)
              (rest.map (fun kv => (kv.1, GEntry.toEntryY kv.2)))) := by
      simp only [parseParamsLoop, hd, Bool.false_eq_true, if_false]
      rfl
    rw [hstep, (load_rawEntry n e).1]
    simp only [bindOk]
    rw [(load_rawEntry n e).2]
    simp only [bindOk]
    have hmem : n ∉ acc.map Prod.fst :=
      not_mem_of_alookup_none (hacc (n, e) (List.mem_cons_self _ _))
    rw [dictSet_append acc n (pOf n e) hmem]
    simp only [List.map_cons, List.nodup_cons] at hnodup
    have hacc' : ∀ kv ∈ rest, alookup (acc ++ [(n, pOf n e)]) kv.1 = none := by
      intro kv hkv
      rw [alookup_append, hacc kv (List.mem_cons_of_mem _ hkv)]
      show alookup [(n, pOf n e)] kv.1 = none
      simp only [alookup]
      rw [if_neg (fun hh => hnodup.1 (by rw [hh]; exact List.mem_map_of_mem Prod.fst hkv))]
    rw [ih (fun kv hkv => hdot kv (List.mem_cons_of_mem _ hkv)) hnodup.2
      (acc ++ [(n, pOf n e)]) hacc']
    simp only [List.append_assoc, List.singleton_append]

theorem compileFold_grammar (env : Env) :
    ∀ (doc : List (String × GEntry)),
      (∀ kv ∈ doc, findRefs kv.1.data = []) →
      (∀ kv ∈ doc, GEntry.wf kv.2 = true) →
      (doc.map Prod.fst).Nodup →
      ∀ acc : List (String × CVal),
        (∀ kv ∈ doc, alookup acc kv.1 = none) →
        List.foldlM (compileStep env false) acc (doc.map (fun kv => pOf kv.1 kv.2))
          = .ok (acc ++ doc.map (fun kv => (kv.1, CVal.frag (expectedFrag kv.2)))) := by
  intro doc
  induction doc with
  | nil =>
    intro _ _ _ acc _
    simp only [List.map_nil, List.append_nil]
    rfl
  | cons kv rest ih =>
    obtain ⟨n, e⟩ := kv
    intro href hwf hnodup acc hacc
    simp only [List.map_cons, List.foldlM_cons]
    rw [compileStep_pOf env acc n e (href (n, e) (List.mem_cons_self _ _))
      (hwf (n, e) (List.mem_cons_self _ _))]
    simp only [bindOk]
    have hmem : n ∉ acc.map Prod.fst :=
      not_mem_of_alookup_none (hacc (n, e) (List.mem_cons_self _ _))
    rw [dictSet_append acc n (CVal.frag (expectedFrag e)) hmem]
    simp only [List.map_cons, List.nodup_cons] at hnodup
    have hacc' : ∀ kv ∈ rest,
        alookup (acc ++ [(n, CVal.frag (expectedFrag e))]) kv.1 = none := by
      intro kv hkv
      rw [alookup_append, hacc kv (List.mem_cons_of_mem _ hkv)]
      show alookup [(n, CVal.frag (expectedFrag e))] kv.1 = none
      simp only [alookup]
      rw [if_neg (fun hh => hnodup.1 (by rw [hh]; exact List.mem_map_of_mem Prod.fst hkv))]
    rw [ih (fun kv hkv => href kv (List.mem_cons_of_mem _ hkv))
      (fun kv hkv => hwf kv (List.mem_cons_of_mem _ hkv)) hnodup.2
      (acc ++ [(n, CVal.frag (expectedFrag e))]) hacc']
    simp only [List.append_assoc, List.singleton_append]

/-- C6 counterexample: on the one-entry document mapping `/p` to
`{Type: StringList, Value: [a, b]}` — reference-free, with no disabled or
overwrite fields — compiling the parsed parameters stores `Value: "a,b"`, the
comma-joined string, which is not the same `Value` as the document's sequence. -/
theorem C6_counterexample_list_value_not_reproduced :
    ((parse_parameter_file
        [("/p", Y.m [("Type", Y.s "StringList"), ("Value", Y.l [Y.s "a", Y.s "b"])])]
        false).bind
      (fun pf => compile_parameter_file envNone (pf.parameters.map Prod.snd) none false))
      = .ok [("/p", CVal.frag
          [("Type", some (.y (Y.s "StringList"))), ("Value", some (.y (Y.s "a,b")))])]
    ∧ Y.s "a,b" ≠ Y.l [Y.s "a", Y.s "b"] :=
  ⟨rfl, by decide⟩

/-- C6 (amended): for a document of non-dot, reference-free, distinct keys
whose entries are string shorthand, sequence shorthand, or a full mapping with
an explicit matching `Type`, reference-free `Value` strings, an optional
nonempty reference-free `AllowedPattern` and an optional nonempty
`Description`, compiling the parameters produced by parse reproduces the
document keys in order with `Type`, `AllowedPattern` and `Description`
preserved and shorthand expanded, except that a sequence `Value` comes back as
the single comma-joined string rather than the original sequence. -/
theorem C6_roundtrip_joins_list_values (env : Env) (doc : List (String × GEntry))
    (hdot : ∀ kv ∈ doc, startsWithDot kv.1 = false)
    (href : ∀ kv ∈ doc, findRefs kv.1.data = [])
    (hwf : ∀ kv ∈ doc, GEntry.wf kv.2 = true)
    (hnodup : (doc.map Prod.fst).Nodup) :
    parse_parameter_file (doc.map (fun kv => (kv.1, GEntry.toEntryY kv.2))) false
      = .ok ⟨[], doc.map (fun kv => (kv.1, pOf kv.1 kv.2)), Y.l []⟩
    ∧ compile_parameter_file env
        ((doc.map (fun kv => (kv.1, pOf kv.1 kv.2))).map Prod.snd) none false
      = .ok (doc.map (fun kv => (kv.1, CVal.frag (expectedFrag kv.2)))) := by
  have hdotm : ∀ p ∈ doc.map (fun kv => (kv.1, GEntry.toEntryY kv.2)),
      startsWithDot p.1 = false := by
    intro p hp
    obtain ⟨kv, hkv, rfl⟩ := List.mem_map.mp hp
    exact hdot kv hkv
  constructor
  · have h1 : alookup (doc.map (fun kv => (kv.1, GEntry.toEntryY kv.2))) ".INPUT" = none :=
      alookup_nodot _ _ rfl hdotm
    have h2 : alookup (doc.map (fun kv => (kv.1, GEntry.toEntryY kv.2))) ".COMMON" = none :=
      alookup_nodot _ _ rfl hdotm
    have h3 : alookup (doc.map (fun kv => (kv.1, GEntry.toEntryY kv.2))) ".FLUSH" = none :=
      alookup_nodot _ _ rfl hdotm
    simp only [parse_parameter_file, h1, h2, h3, pureBindOk,
      show Input.load [] = Except.ok ([] : List (String × Input)) from rfl, bindOk]
    rw [parseLoop_grammar doc hdot hnodup [] (fun kv _ => rfl)]
    simp only [bindOk, List.nil_append]
    rfl
  · have hm : (doc.map (fun kv => (kv.1, pOf kv.1 kv.2))).map Prod.snd
        = doc.map (fun kv => pOf kv.1 kv.2) := by
      rw [List.map_map]
      rfl
    rw [hm]
    show List.foldlM (compileStep env false) [] (doc.map (fun kv => pOf kv.1 kv.2)) = _
    rw [compileFold_grammar env doc href hwf hnodup [] (fun kv _ => rfl)]
    simp only [List.nil_append]

/-- Witness for C6 (amended) at a three-entry document exercising the string
shorthand, the sequence shorthand, and a full mapping with `AllowedPattern`
and `Description`. -/
theorem C6_roundtrip_joins_list_values_witness :
    parse_parameter_file (docW6.map (fun kv => (kv.1, GEntry.toEntryY kv.2))) false
      = .ok ⟨[], docW6.map (fun kv => (kv.1, pOf kv.1 kv.2)), Y.l []⟩
    ∧ compile_parameter_file envNone
        ((docW6.map (fun kv => (kv.1, pOf kv.1 kv.2))).map Prod.snd) none false
      = .ok (docW6.map (fun kv => (kv.1, CVal.frag (expectedFrag kv.2)))) :=
  C6_roundtrip_joins_list_values envNone docW6 (by decide) (by decide) (by decide)
    (by decide)

end SsmCtl
